import Mathlib

/-!
Shallow embedding of the ghl self-balancing binary search tree family
(`tree.h` / `binary_search_tree.h` / `avl_tree.h`).

A tree node of the source owns two child subtrees, an optional value and a
height attribute (`binary_tree_with_height`).  The BST engine never creates
valueless nodes, so a node is modelled as a value, a stored height field and
two children; the absent child (`nullptr`) is `Node.nil`, whose height reads
as 0 (`has_left()`/`get_height()` semantics).  The stored height is data, not
a derived quantity: the source recomputes it only when one of the mutation
primitives fires `update_height_on_path`, and the embedding reproduces
exactly those recomputations, so stale heights are representable.

Positions (the source's `iterator`, a node pointer) are modelled as paths
from the root: a list of directions.  Operations that dereference a null
pointer in the source (undefined behaviour) return `none`.
-/

namespace ghl

/-- A step from a node to one of its two child slots. -/
inductive Dir : Type
  | L
  | R
deriving DecidableEq, Repr

/-- A binary tree node of `binary_tree_with_height<T>`: a contained value, the
stored `height` field and the two child slots; `nil` is the absent child. -/
inductive Node (α : Type) : Type
  | nil : Node α
  | node (v : α) (ht : Nat) (l r : Node α) : Node α
deriving DecidableEq, Repr

namespace Node

variable {α : Type}

/-- Reading `get_height()` through a possibly absent child: an absent child
contributes height 0 (the `has_left() ? left()->get_height() : 0` pattern). -/
def get_height : Node α → Nat
  | nil => 0
  | node _ h _ _ => h

/-- The source's `update_height`: recompute this node's stored height from the
stored heights of its direct children, leaving everything else alone. -/
def update_height : Node α → Node α
  | nil => nil
  | node v _ l r => node v (1 + max l.get_height r.get_height) l r

/-- The `has_left()` test of the source: the left child slot is non-null. -/
def has_left : Node α → Bool
  | nil => false
  | node _ _ l _ => !(l matches nil)

/-- The `has_right()` test of the source. -/
def has_right : Node α → Bool
  | nil => false
  | node _ _ _ r => !(r matches nil)

/-- In-order traversal of the stored values. -/
def inorder : Node α → List α
  | nil => []
  | node v _ l r => l.inorder ++ v :: r.inorder

/-- Number of nodes. -/
def size : Node α → Nat
  | nil => 0
  | node _ _ l r => l.size + r.size + 1

/-- Whether every stored height satisfies
`height = 1 + max (height left) (height right)` with absent children
reading as 0 (the spec's height-correctness invariant). -/
def heights_ok : Node α → Bool
  | nil => true
  | node _ h l r =>
    (h == 1 + max l.get_height r.get_height) && l.heights_ok && r.heights_ok

/-- Whether every node satisfies the AVL balance condition on the stored
heights of its children. -/
def balance_ok : Node α → Bool
  | nil => true
  | node _ _ l r =>
    (max l.get_height r.get_height - min l.get_height r.get_height ≤ 1 : Bool)
      && l.balance_ok && r.balance_ok

end Node

variable {α : Type}

/-- The node reached from a given node by following a list of directions;
`none` when the walk steps into an absent child. -/
def subtree_at : Node α → List Dir → Option (Node α)
  | t, [] => some t
  | Node.nil, _ :: _ => none
  | Node.node _ _ l _, Dir.L :: q => subtree_at l q
  | Node.node _ _ _ r, Dir.R :: q => subtree_at r q

/-- Directions from a node down to the minimum of its subtree: follow left
children while they exist (path form of `internal_minimum`). -/
def left_spine : Node α → List Dir
  | Node.nil => []
  | Node.node _ _ Node.nil _ => []
  | Node.node _ _ (Node.node w g c d) _ => Dir.L :: left_spine (Node.node w g c d)

/-- Directions from a node down to the maximum of its subtree: follow right
children while they exist (path form of `internal_maximum`). -/
def right_spine : Node α → List Dir
  | Node.nil => []
  | Node.node _ _ _ Node.nil => []
  | Node.node _ _ _ (Node.node w g c d) => Dir.R :: right_spine (Node.node w g c d)

variable [LinearOrder α]

/-- The walk of `binary_search_tree::insert` together with the attachment it
performs.  At each node the new value is compared with `<=`: left on `<=`,
right otherwise, until the walk steps into an absent slot; there the final
comparison with the tracked parent decides.  With duplication allowed the
new node is attached on the side the walk entered; with duplication
disallowed an equal final parent means no node is created and the walk
silently stops.  Attaching a node runs `update_height_on_path`, so every
node on the walk gets its stored height recomputed bottom-up; a silent stop
recomputes nothing.  Returns the new tree and the path to the new node
(`none` when no node was created, the invalid iterator). -/
def bst_insert (x : α) (dup : Bool) : Node α → Node α × Option (List Dir)
  | Node.nil => (Node.node x 1 Node.nil Node.nil, some [])
  | Node.node v h l r =>
    if x ≤ v then
      match l with
      | Node.nil =>
        if dup || x < v then
          (Node.node v (1 + max 1 r.get_height) (Node.node x 1 Node.nil Node.nil) r,
            some [Dir.L])
        else
          (Node.node v h Node.nil r, none)
      | Node.node w g c d =>
        let res := bst_insert x dup (Node.node w g c d)
        (Node.node v (if res.2.isSome then 1 + max res.1.get_height r.get_height else h)
            res.1 r,
          res.2.map (Dir.L :: ·))
    else
      match r with
      | Node.nil =>
        (Node.node v (1 + max l.get_height 1) l (Node.node x 1 Node.nil Node.nil),
          some [Dir.R])
      | Node.node w g c d =>
        let res := bst_insert x dup (Node.node w g c d)
        (Node.node v (if res.2.isSome then 1 + max l.get_height res.1.get_height else h)
            l res.1,
          res.2.map (Dir.R :: ·))

/-- The walk of `internal_find`: equality first, then `<=` goes left, else
right; returns the path to the found node or `none` (the invalid iterator). -/
def internal_find (x : α) : Node α → Option (List Dir)
  | Node.nil => none
  | Node.node v _ l r =>
    if x = v then some []
    else if x ≤ v then (internal_find x l).map (Dir.L :: ·)
    else (internal_find x r).map (Dir.R :: ·)

/-- The `internal_minimum` walk: follow left children until absent.  Called
on a null node (the empty tree) the source dereferences it, modelled as
`none`. -/
def internal_minimum : Node α → Option (Node α)
  | Node.nil => none
  | Node.node v h Node.nil r => some (Node.node v h Node.nil r)
  | Node.node _ _ (Node.node w g c d) _ => internal_minimum (Node.node w g c d)

/-- The `internal_maximum` walk, mirror of `internal_minimum`. -/
def internal_maximum : Node α → Option (Node α)
  | Node.nil => none
  | Node.node v h l Node.nil => some (Node.node v h l Node.nil)
  | Node.node _ _ _ (Node.node w g c d) => internal_maximum (Node.node w g c d)

/-!
The mutation primitives of `binary_tree_with_height`, node-local view.  Each
override first performs the structural change of the base class, then calls
`update_height_on_path` on the point of change.  Crucially, `set_left(n)`
(resp. `set_right`) calls `update_height_on_path(this->left())`: when `n` is
null that argument is null and no height is recomputed at all; the other
primitives pass `this` and always recompute.  The node-local models below
capture the effect on the mutated node; the walk to the root performed by
`update_height_on_path` is the bottom-up recomputation that the path-indexed
operations of this file replay on their way back up.
-/

/-- Model of `binary_tree_with_height::set_left(n)` at the mutated node: the
slot is overwritten (destroying any previous occupant); for a non-null `n`
the new child and then this node get their heights recomputed, while for a
null `n` `update_height_on_path(nullptr)` does nothing and the stored height
is left as it was. -/
def set_left_m (t c : Node α) : Node α :=
  match t with
  | Node.nil => Node.nil
  | Node.node v h _ r =>
    match c with
    | Node.nil => Node.node v h Node.nil r
    | Node.node w g a b =>
      let c2 := (Node.node w g a b).update_height
      Node.node v (1 + max c2.get_height r.get_height) c2 r

/-- Model of `binary_tree_with_height::set_right(n)`, mirror of
`set_left_m`. -/
def set_right_m (t c : Node α) : Node α :=
  match t with
  | Node.nil => Node.nil
  | Node.node v h l _ =>
    match c with
    | Node.nil => Node.node v h l Node.nil
    | Node.node w g a b =>
      let c2 := (Node.node w g a b).update_height
      Node.node v (1 + max l.get_height c2.get_height) l c2

/-- Model of `binary_tree_with_height::reset_left()`: the left subtree is
destroyed and `update_height_on_path(this)` recomputes this node's height. -/
def reset_left_m (t : Node α) : Node α :=
  match t with
  | Node.nil => Node.nil
  | Node.node v _ _ r => Node.node v (1 + max 0 r.get_height) Node.nil r

/-- Model of `binary_tree_with_height::reset_right()`. -/
def reset_right_m (t : Node α) : Node α :=
  match t with
  | Node.nil => Node.nil
  | Node.node v _ l _ => Node.node v (1 + max l.get_height 0) l Node.nil

/-- Model of `binary_tree_with_height::release_left()`: the left subtree is
released (its own stored heights untouched) and `update_height_on_path(this)`
recomputes this node's height.  Returns the node and the released subtree. -/
def release_left_m (t : Node α) : Node α × Node α :=
  match t with
  | Node.nil => (Node.nil, Node.nil)
  | Node.node v _ l r => (Node.node v (1 + max 0 r.get_height) Node.nil r, l)

/-- Model of `binary_tree_with_height::release_right()`. -/
def release_right_m (t : Node α) : Node α × Node α :=
  match t with
  | Node.nil => (Node.nil, Node.nil)
  | Node.node v _ l r => (Node.node v (1 + max l.get_height 0) l Node.nil, r)

/-- `set_left` invoked on the node at the end of a path, with the upward walk
of `update_height_on_path` replayed through the ancestors: when the new child
is non-null every ancestor's height is recomputed bottom-up, and when it is
null nothing fires, so every ancestor keeps its stored height. -/
def set_left_at : Node α → List Dir → Node α → Option (Node α)
  | t, [], c => some (set_left_m t c)
  | Node.nil, _ :: _, _ => none
  | Node.node v h l r, Dir.L :: q, c =>
    (set_left_at l q c).map fun l2 =>
      match c with
      | Node.nil => Node.node v h l2 r
      | Node.node _ _ _ _ => Node.node v (1 + max l2.get_height r.get_height) l2 r
  | Node.node v h l r, Dir.R :: q, c =>
    (set_left_at r q c).map fun r2 =>
      match c with
      | Node.nil => Node.node v h l r2
      | Node.node _ _ _ _ => Node.node v (1 + max l.get_height r2.get_height) l r2

/-- `set_right` invoked at the end of a path, mirror of `set_left_at`. -/
def set_right_at : Node α → List Dir → Node α → Option (Node α)
  | t, [], c => some (set_right_m t c)
  | Node.nil, _ :: _, _ => none
  | Node.node v h l r, Dir.L :: q, c =>
    (set_right_at l q c).map fun l2 =>
      match c with
      | Node.nil => Node.node v h l2 r
      | Node.node _ _ _ _ => Node.node v (1 + max l2.get_height r.get_height) l2 r
  | Node.node v h l r, Dir.R :: q, c =>
    (set_right_at r q c).map fun r2 =>
      match c with
      | Node.nil => Node.node v h l r2
      | Node.node _ _ _ _ => Node.node v (1 + max l.get_height r2.get_height) l r2

/-- `reset_left` invoked on the node at the end of a path:
`update_height_on_path(this)` always fires, so the mutated node and every
ancestor get their heights recomputed bottom-up. -/
def reset_left_at : Node α → List Dir → Option (Node α)
  | t, [] => some (reset_left_m t)
  | Node.nil, _ :: _ => none
  | Node.node v _ l r, Dir.L :: q =>
    (reset_left_at l q).map fun l2 =>
      Node.node v (1 + max l2.get_height r.get_height) l2 r
  | Node.node v _ l r, Dir.R :: q =>
    (reset_left_at r q).map fun r2 =>
      Node.node v (1 + max l.get_height r2.get_height) l r2

/-- `reset_right` invoked at the end of a path, mirror of `reset_left_at`. -/
def reset_right_at : Node α → List Dir → Option (Node α)
  | t, [] => some (reset_right_m t)
  | Node.nil, _ :: _ => none
  | Node.node v _ l r, Dir.L :: q =>
    (reset_right_at l q).map fun l2 =>
      Node.node v (1 + max l2.get_height r.get_height) l2 r
  | Node.node v _ l r, Dir.R :: q =>
    (reset_right_at r q).map fun r2 =>
      Node.node v (1 + max l.get_height r2.get_height) l r2

/-- `release_left` invoked on the node at the end of a path: the released
subtree keeps its stored heights, and `update_height_on_path(this)`
recomputes the mutated node's and every ancestor's height bottom-up.
Returns the new tree and the released subtree. -/
def release_left_at : Node α → List Dir → Option (Node α × Node α)
  | t, [] => some (release_left_m t)
  | Node.nil, _ :: _ => none
  | Node.node v _ l r, Dir.L :: q =>
    (release_left_at l q).map fun lo =>
      (Node.node v (1 + max lo.1.get_height r.get_height) lo.1 r, lo.2)
  | Node.node v _ l r, Dir.R :: q =>
    (release_left_at r q).map fun ro =>
      (Node.node v (1 + max l.get_height ro.1.get_height) l ro.1, ro.2)

/-- `release_right` invoked at the end of a path, mirror of
`release_left_at`. -/
def release_right_at : Node α → List Dir → Option (Node α × Node α)
  | t, [] => some (release_right_m t)
  | Node.nil, _ :: _ => none
  | Node.node v _ l r, Dir.L :: q =>
    (release_right_at l q).map fun lo =>
      (Node.node v (1 + max lo.1.get_height r.get_height) lo.1 r, lo.2)
  | Node.node v _ l r, Dir.R :: q =>
    (release_right_at r q).map fun ro =>
      (Node.node v (1 + max l.get_height ro.1.get_height) l ro.1, ro.2)

/-!
Removal.  `internal_remove` has three cases: no left child (the right child,
possibly null, is transplanted into the node's place), no right child, and
two children (the in-order successor, the minimum of the right subtree, takes
the node's place).  The models below record precisely which stored heights
the chains of `release_*`/`set_*`/`transplant` calls recompute: removing a
leaf goes through `transplant(node, nullptr, parent, _)`, whose
`set_left(nullptr)`/`set_right(nullptr)` recomputes nothing, so the parent
and all ancestors keep their stored heights; every other case ends in a
`set_*` with a non-null argument (or `root.reset`), recomputing the new
occupant's height one level and every ancestor's height bottom-up.
-/

/-- Extraction of the minimum of the left chain at depth at least one below
the right child: the leftmost node is detached by `release_left` on its
parent and its right subtree is planted in its place (recomputed one level by
`set_left` when non-null); each node on the descent gets its height
recomputed by the upward walks.  Returns the minimum's value and the
remaining subtree. -/
def extract_min_go : Node α → Option (α × Node α)
  | Node.nil => none
  | Node.node v _ Node.nil rr => some (v, rr.update_height)
  | Node.node v _ (Node.node w g c d) rr =>
    (extract_min_go (Node.node w g c d)).map fun ml =>
      (ml.1, Node.node v (1 + max ml.2.get_height rr.get_height) ml.2 rr)

/-- The in-order successor taken out of the right subtree of the node being
removed.  When the right child itself has no left child it is the successor
and keeps its right subtree untouched (the `successor == node->right` branch
of `internal_remove`); otherwise the minimum is extracted from the left
chain. -/
def extract_min : Node α → Option (α × Node α)
  | Node.nil => none
  | Node.node v _ Node.nil rr => some (v, rr)
  | Node.node v _ (Node.node w g c d) rr =>
    (extract_min_go (Node.node w g c d)).map fun ml =>
      (ml.1, Node.node v (1 + max ml.2.get_height rr.get_height) ml.2 rr)

/-- The body of `internal_remove` at the node being removed.  Returns the
occupant of the vacated slot, whether any `update_height_on_path` walk
reached the ancestors, and whether the returned `res` node is that occupant
(`false` means `res` is the parent, the leaf case).  `isRoot` tells whether
the slot is the tree handle itself (`root.reset` recomputes nothing) or a
parent's child slot (`set_*` with a non-null occupant recomputes it one
level). -/
def remove_here (isRoot : Bool) : Node α → Option (Node α × Bool × Bool)
  | Node.nil => none
  | Node.node _ _ Node.nil Node.nil => some (Node.nil, false, false)
  | Node.node _ _ Node.nil (Node.node w g c d) =>
    some (if isRoot then Node.node w g c d else (Node.node w g c d).update_height,
      true, true)
  | Node.node _ _ (Node.node w g c d) Node.nil =>
    some (if isRoot then Node.node w g c d else (Node.node w g c d).update_height,
      true, true)
  | Node.node _ _ (Node.node lw lg lc ld) (Node.node rw rg rc rd) =>
    (extract_min (Node.node rw rg rc rd)).map fun mr =>
      let l2 := (Node.node lw lg lc ld).update_height
      (Node.node mr.1 (1 + max l2.get_height mr.2.get_height) l2 mr.2, true, true)

/-- `internal_remove` at the end of a path.  Returns the new tree, whether
the ancestors' heights were recomputed (they are not when a leaf is removed),
and the path to the returned `res` node: the new occupant of the slot, or the
parent when the slot became empty, or `none` when the whole tree emptied. -/
def remove_go (isRoot : Bool) : Node α → List Dir → Option (Node α × Bool × Option (List Dir))
  | t, [] =>
    (remove_here isRoot t).map fun oui =>
      (oui.1, oui.2.1, if oui.2.2 then some [] else none)
  | Node.nil, _ :: _ => none
  | Node.node v h l r, Dir.L :: q =>
    (remove_go false l q).map fun lur =>
      (if lur.2.1 then Node.node v (1 + max lur.1.get_height r.get_height) lur.1 r
        else Node.node v h lur.1 r,
       lur.2.1,
       some (match lur.2.2 with | some p => Dir.L :: p | none => []))
  | Node.node v h l r, Dir.R :: q =>
    (remove_go false r q).map fun rur =>
      (if rur.2.1 then Node.node v (1 + max l.get_height rur.1.get_height) l rur.1
        else Node.node v h l rur.1,
       rur.2.1,
       some (match rur.2.2 with | some p => Dir.R :: p | none => []))

/-- `internal_remove` on the node a valid iterator designates, from the
root. -/
def remove_at (t : Node α) (p : List Dir) : Option (Node α × Bool × Option (List Dir)) :=
  remove_go true t p

/-- The public `binary_search_tree::remove(const T&)`: find, then remove the
found node; an invalid find leaves the tree untouched and yields `false`.
For a path produced by `internal_find` the removal always succeeds, so the
fallback branch is dead code of the model. -/
def bst_remove (t : Node α) (x : α) : Bool × Node α :=
  match internal_find x t with
  | none => (false, t)
  | some p =>
    match remove_at t p with
    | some (t2, _, _) => (true, t2)
    | none => (true, t)

/-!
The AVL layer of `avl_tree.h`.
-/

/-- The four imbalance cases of `avl_tree_imbalance_type`. -/
inductive imbalance_type : Type
  | LL
  | RL
  | LR
  | RR
deriving DecidableEq, Repr

/-- Result of `check_balance_on_path`: balanced, or the imbalance point (as
the path from the root) with its classified type, or an undefined-behaviour
walk (a null dereference in `is_on_left_or_right` or on the path). -/
inductive BalRes : Type
  | balanced
  | imb (pre : List Dir) (ty : imbalance_type)
  | ub
deriving DecidableEq, Repr

/-- `check_balance_on_path(end)`: walk from the end position's parent up to
the root and report the first ancestor whose children's stored heights differ
by more than one.  The classification reads the direction from that ancestor
to the walking child and, through `is_on_left_or_right`, whether the end node
lies in that child's left or right subtree; an end node equal to the child
would make `is_on_left_or_right` walk past the root (undefined behaviour). -/
def BalRes.step (d : Dir) (here : BalRes) : BalRes → BalRes
  | BalRes.imb pre ty => BalRes.imb (d :: pre) ty
  | BalRes.ub => BalRes.ub
  | BalRes.balanced => here

/-- The check of one ancestor: its children's stored heights, and on an
imbalance the classification from the direction to the walking child and the
first step from that child towards the end node (empty when the end node is
the child itself, which the source's `is_on_left_or_right` cannot answer). -/
def check_here (lh rh : Nat) (d : Dir) (rest : List Dir) : BalRes :=
  let diff := if rh ≤ lh then lh - rh else rh - lh
  if 1 < diff then
    match d, rest with
    | Dir.L, Dir.L :: _ => BalRes.imb [] imbalance_type.LL
    | Dir.L, Dir.R :: _ => BalRes.imb [] imbalance_type.LR
    | Dir.R, Dir.L :: _ => BalRes.imb [] imbalance_type.RL
    | Dir.R, Dir.R :: _ => BalRes.imb [] imbalance_type.RR
    | _, [] => BalRes.ub
  else BalRes.balanced

def check_balance : Node α → List Dir → BalRes
  | _, [] => BalRes.balanced
  | Node.nil, _ :: _ => BalRes.ub
  | Node.node _ _ l r, Dir.L :: rest =>
    BalRes.step Dir.L (check_here l.get_height r.get_height Dir.L rest)
      (check_balance l rest)
  | Node.node _ _ l r, Dir.R :: rest =>
    BalRes.step Dir.R (check_here l.get_height r.get_height Dir.R rest)
      (check_balance r rest)

/-- `avl_tree::rotate` at the imbalance point.  Each case releases the
subtrees named in the source (`k1`/`k2`/`k3`, `b`, `c`) and reattaches them;
heights are recomputed only as side effects of the `set_*` calls: the moved
subtrees `b`/`c` get a one-level recomputation when reattached by `set_*`,
and each restructured node's height is recomputed from its new children.
`none` when the shape the case dereferences is absent (never reached from a
classified imbalance). -/
def rotate_case : imbalance_type → Node α → Option (Node α)
  | imbalance_type.LL, Node.node vy _ (Node.node vx _ a b) c =>
    let b2 := b.update_height
    let k2 := Node.node vy (1 + max b2.get_height c.get_height) b2 c
    some (Node.node vx (1 + max a.get_height k2.get_height) a k2)
  | imbalance_type.RR, Node.node vy _ a (Node.node vx _ b c) =>
    let b2 := b.update_height
    let k1 := Node.node vy (1 + max a.get_height b2.get_height) a b2
    some (Node.node vx (1 + max k1.get_height c.get_height) k1 c)
  | imbalance_type.LR, Node.node v3 _ (Node.node v1 _ a (Node.node v2 _ b c)) d =>
    let b2 := b.update_height
    let c2 := c.update_height
    let k1 := Node.node v1 (1 + max a.get_height b2.get_height) a b2
    let k3 := Node.node v3 (1 + max c2.get_height d.get_height) c2 d
    some (Node.node v2 (1 + max k1.get_height k3.get_height) k1 k3)
  | imbalance_type.RL, Node.node v1 _ a (Node.node v3 _ (Node.node v2 _ b c) d) =>
    let b2 := b.update_height
    let c2 := c.update_height
    let k1 := Node.node v1 (1 + max a.get_height b2.get_height) a b2
    let k3 := Node.node v3 (1 + max c2.get_height d.get_height) c2 d
    some (Node.node v2 (1 + max k1.get_height k3.get_height) k1 k3)
  | _, _ => none

/-- The rotation spliced back into the slot the imbalance point occupied
(`update_parent_branch`), with the final `set_*` walking heights up to the
root: each ancestor on the way back up is recomputed. -/
def rotate_at : Node α → List Dir → imbalance_type → Option (Node α)
  | t, [], ty => rotate_case ty t
  | Node.nil, _ :: _, _ => none
  | Node.node v _ l r, Dir.L :: q, ty =>
    (rotate_at l q ty).map fun l2 =>
      Node.node v (1 + max l2.get_height r.get_height) l2 r
  | Node.node v _ l r, Dir.R :: q, ty =>
    (rotate_at r q ty).map fun r2 =>
      Node.node v (1 + max l.get_height r2.get_height) l r2

/-- `avl_tree::insert`: delegate to the BST insert, and when a node was
created check the path from it to the root and rotate at the first imbalance.
`none` models the undefined-behaviour branches of the balance check. -/
def avl_insert (t : Node α) (x : α) (dup : Bool) : Option (Node α) :=
  match bst_insert x dup t with
  | (t2, none) => some t2
  | (t2, some p) =>
    match check_balance t2 p with
    | BalRes.balanced => some t2
    | BalRes.ub => none
    | BalRes.imb pre ty => rotate_at t2 pre ty

/-- `avl_tree::find_remove_path_end`: from the node `internal_remove`
returned, walk down, at each node of stored height above one stepping to the
left child when it exists with stored height one less, else to the right
child.  Stepping into an absent child dereferences null on the next loop
test, modelled as `none`.  Returns the directions walked. -/
def find_remove_path_end : Node α → Option (List Dir)
  | Node.nil => none
  | Node.node _ h l r =>
    if h ≤ 1 then some []
    else
      match l with
      | Node.node _ lg _ _ =>
        if lg = h - 1 then (find_remove_path_end l).map (Dir.L :: ·)
        else (find_remove_path_end r).map (Dir.R :: ·)
      | Node.nil => (find_remove_path_end r).map (Dir.R :: ·)

/-- `avl_tree::remove(iterator)` on a valid position: run `internal_remove`,
and when it returned a node, extend it by `find_remove_path_end` and run the
same check-and-rotate procedure as insertion.  `none` models the undefined
behaviour reached when a walk dereferences null. -/
def avl_remove_at (t : Node α) (p : List Dir) : Option (Node α) :=
  match remove_at t p with
  | none => none
  | some (t2, _, none) => some t2
  | some (t2, _, some res) =>
    match subtree_at t2 res with
    | none => none
    | some sub =>
      match find_remove_path_end sub with
      | none => none
      | some tail =>
        match check_balance t2 (res ++ tail) with
        | BalRes.balanced => some t2
        | BalRes.ub => none
        | BalRes.imb pre ty => rotate_at t2 pre ty

/-- The public `avl_tree::remove(const T&)`: find then remove.  An absent
value yields `false` with the tree untouched; a present value yields `true`
with the rebalanced tree, or `none` when the removal runs into undefined
behaviour before returning. -/
def avl_remove (t : Node α) (x : α) : Option (Bool × Node α) :=
  match internal_find x t with
  | none => some (false, t)
  | some p => (avl_remove_at t p).map fun t2 => (true, t2)

/-!
Iterator navigation: `successor`/`predecessor` of `binary_search_tree`.
-/

/-- The upward phase of `iterator::successor` on the reversed path: climb
while the current node is its parent's right child; the first parent reached
from a left child is the successor, and reaching past the root yields the
invalid iterator. -/
def climb_sr : List Dir → Option (List Dir)
  | [] => none
  | Dir.R :: rest => climb_sr rest
  | Dir.L :: rest => some rest.reverse

/-- The upward phase of `iterator::predecessor`, mirror of `climb_sr`. -/
def climb_pl : List Dir → Option (List Dir)
  | [] => none
  | Dir.L :: rest => climb_pl rest
  | Dir.R :: rest => some rest.reverse

/-- `iterator::successor` as a path transformer: the minimum of the right
subtree when there is one, otherwise the climb; `none` also stands for a
position that does not designate a node. -/
def successor (t : Node α) (p : List Dir) : Option (List Dir) :=
  match subtree_at t p with
  | none => none
  | some Node.nil => none
  | some (Node.node _ _ _ r) =>
    match r with
    | Node.node _ _ _ _ => some (p ++ Dir.R :: left_spine r)
    | Node.nil => climb_sr p.reverse

/-- `iterator::predecessor` as a path transformer, mirror of `successor`. -/
def predecessor (t : Node α) (p : List Dir) : Option (List Dir) :=
  match subtree_at t p with
  | none => none
  | some Node.nil => none
  | some (Node.node _ _ l _) =>
    match l with
    | Node.node _ _ _ _ => some (p ++ Dir.L :: right_spine l)
    | Node.nil => climb_pl p.reverse

/-!
Plain-shape helpers: the insertion walk described by the spec, stated on
trees stripped of the height bookkeeping, used to state the refinement
claims about `insert`.
-/

/-- A tree shape without the height augmentation (the plain `binary_tree`
node holds no height). -/
inductive PTree (α : Type) : Type
  | nil : PTree α
  | node (v : α) (l r : PTree α) : PTree α
deriving DecidableEq, Repr

/-- Forget the stored heights. -/
def strip : Node α → PTree α
  | Node.nil => PTree.nil
  | Node.node v _ l r => PTree.node v (strip l) (strip r)

/-- Modelled from the spec: the insertion walk with duplication allowed goes
left on `<=` and right otherwise, until it steps into an absent slot; the
directions walked are the position of the new node. -/
def walk_path (x : α) : PTree α → List Dir
  | PTree.nil => []
  | PTree.node v l r =>
    if x ≤ v then Dir.L :: walk_path x l else Dir.R :: walk_path x r

/-- Modelled from the spec: attach a fresh leaf holding `x` at the empty slot
a list of directions designates. -/
def attach_leaf (x : α) : PTree α → List Dir → PTree α
  | PTree.nil, _ => PTree.node x PTree.nil PTree.nil
  | PTree.node v l r, [] => PTree.node v l r
  | PTree.node v l r, Dir.L :: q => PTree.node v (attach_leaf x l q) r
  | PTree.node v l r, Dir.R :: q => PTree.node v l (attach_leaf x r q)

/-- The value of the last non-absent node the insertion walk visits (the
tracked candidate parent `y` of `binary_search_tree::insert`). -/
def walk_end (x : α) : Node α → Option α
  | Node.nil => none
  | Node.node v _ l r =>
    if x ≤ v then
      match l with
      | Node.nil => some v
      | Node.node w g c d => walk_end x (Node.node w g c d)
    else
      match r with
      | Node.nil => some v
      | Node.node w g c d => walk_end x (Node.node w g c d)

/-- The left child slot of a node (absent for `nil`). -/
def left_child : Node α → Node α
  | Node.nil => Node.nil
  | Node.node _ _ l _ => l

/-- The right child slot of a node (absent for `nil`). -/
def right_child : Node α → Node α
  | Node.nil => Node.nil
  | Node.node _ _ _ r => r

/-!
Concrete trees used by the evaluative theorems.
-/

/-- The AVL tree after inserting 2 into the empty tree. -/
def tree2 : Node Int := Node.node 2 1 Node.nil Node.nil

/-- The AVL tree after inserting 2 then 1: root 2 of height 2 with left
child 1. -/
def tree21 : Node Int := Node.node 2 2 (Node.node 1 1 Node.nil Node.nil) Node.nil

/-- The AVL tree holding 8, 4, 12 after the LL rotation of scenario 2. -/
def tree8_4_12 : Node Int :=
  Node.node 8 2 (Node.node 4 1 Node.nil Node.nil) (Node.node 12 1 Node.nil Node.nil)

/-- The AVL tree holding 6, 4, 8 after the LR rotation of scenario 3. -/
def tree6_4_8 : Node Int :=
  Node.node 6 2 (Node.node 4 1 Node.nil Node.nil) (Node.node 8 1 Node.nil Node.nil)

/-- A BST with root 5 and left child 3, as built by inserting 5 then 3. -/
def tree53 : Node Int := Node.node 5 2 (Node.node 3 1 Node.nil Node.nil) Node.nil

/-- C1: the AVL balance invariant cannot hold at the return of every public
insert/remove call, because a remove can fail to return at all: starting
from the empty tree, insert 2, insert 1 (a balanced tree with correct
heights), then remove 1.  The removal clears the parent's child slot through
`set_left(nullptr)`, which recomputes no heights, so the root keeps stored
height 2; `find_remove_path_end` then steps into the absent right child and
dereferences null (the model's error branch `none`), contradicting the
source's own comment that the walk never reaches null. -/
theorem c1_avl_remove_crashes :
    avl_insert (Node.nil : Node Int) 2 true = some tree2 ∧
    avl_insert tree2 1 true = some tree21 ∧
    tree21.heights_ok = true ∧ tree21.balance_ok = true ∧
    avl_remove tree21 1 = none := by
  decide

/-- C6: `remove(v)` does return `false` and leave the tree unchanged when
`v` is absent — at the BST engine and at the AVL layer — but the claimed
equivalence fails in the present direction at the AVL layer: on the tree
holding 2 and 1, the value 1 is present (`find` yields a valid position),
the BST engine's remove returns `true`, yet the AVL remove dereferences null
before it can return `true` (the model's `none`). -/
theorem c6_remove_presence :
    (internal_find (1 : Int) tree21).isSome = true ∧
    bst_remove tree21 1 = (true, Node.node 2 2 Node.nil Node.nil) ∧
    avl_remove tree21 1 = none ∧
    internal_find (3 : Int) tree21 = none ∧
    bst_remove tree21 3 = (false, tree21) ∧
    avl_remove tree21 3 = some (false, tree21) := by
  decide

/-- C8: inserting 12, 8, 4 into the empty AVL tree triggers the LL rotation
and yields root 8 with children 4 and 12; releasing the root's right child
and inserting 6 triggers the LR rotation and yields root 6 with children 4
and 8 — the two concrete scenarios of the spec, step by step. -/
theorem c8_ll_lr_scenarios :
    avl_insert (Node.nil : Node Int) 12 true = some (Node.node 12 1 Node.nil Node.nil) ∧
    avl_insert (Node.node 12 1 Node.nil Node.nil) 8 true
      = some (Node.node 12 2 (Node.node 8 1 Node.nil Node.nil) Node.nil) ∧
    avl_insert (Node.node 12 2 (Node.node 8 1 Node.nil Node.nil) Node.nil) 4 true
      = some tree8_4_12 ∧
    (release_right_m tree8_4_12).1
      = Node.node 8 2 (Node.node 4 1 Node.nil Node.nil) Node.nil ∧
    (release_right_m tree8_4_12).2 = Node.node 12 1 Node.nil Node.nil ∧
    avl_insert (Node.node 8 2 (Node.node 4 1 Node.nil Node.nil) Node.nil) 6 true
      = some tree6_4_8 := by
  decide

/-- C3 counterexample: on a node with correct heights (root 2 of height 2
with one left leaf child), invoking `set_left` with a null argument leaves
the stored height untouched: the result stores height 2 where
`1 + max(height(left), height(right)) = 1`, so no recomputation happened
and the height invariant is broken. -/
theorem c3_set_left_null_stale :
    tree21.heights_ok = true ∧
    set_left_m tree21 Node.nil = Node.node 2 2 Node.nil Node.nil ∧
    (set_left_m tree21 Node.nil).heights_ok = false ∧
    set_left_at tree21 [] Node.nil = some (Node.node 2 2 Node.nil Node.nil) := by
  decide

/-- C4 counterexample: in the BST built by inserting 5 then 3, the value 5
is present (`find` yields a valid position), yet `insert(5, false)` is not a
no-op: the walk compares 5 only with the final candidate parent 3, so a new
duplicate node is created as the right child of 3 and a valid position is
returned. -/
theorem c4_duplicate_created :
    (bst_insert (5 : Int) true Node.nil).1 = Node.node 5 1 Node.nil Node.nil ∧
    (bst_insert (3 : Int) true (Node.node 5 1 Node.nil Node.nil)).1 = tree53 ∧
    (internal_find (5 : Int) tree53).isSome = true ∧
    (bst_insert (5 : Int) false tree53).2 = some [Dir.L, Dir.R] ∧
    (bst_insert (5 : Int) false tree53).1
      = Node.node 5 3 (Node.node 3 2 Node.nil (Node.node 5 1 Node.nil Node.nil)) Node.nil ∧
    (bst_insert (5 : Int) false tree53).1.size = tree53.size + 1 := by
  decide

/-!
Helper lemmas.
-/

@[simp] theorem get_height_nil : (Node.nil : Node α).get_height = 0 := rfl

@[simp] theorem get_height_node {v : α} {h : Nat} {l r : Node α} :
    (Node.node v h l r).get_height = h := rfl

@[simp] theorem inorder_nil : (Node.nil : Node α).inorder = [] := rfl

@[simp] theorem inorder_node {v : α} {h : Nat} {l r : Node α} :
    (Node.node v h l r).inorder = l.inorder ++ v :: r.inorder := rfl

@[simp] theorem update_height_nil : (Node.nil : Node α).update_height = Node.nil := rfl

@[simp] theorem inorder_update_height (t : Node α) :
    t.update_height.inorder = t.inorder := by
  cases t <;> rfl

theorem heights_ok_node {v : α} {h : Nat} {l r : Node α} :
    (Node.node v h l r).heights_ok = true ↔
      h = 1 + max l.get_height r.get_height ∧ l.heights_ok = true ∧ r.heights_ok = true := by
  simp [Node.heights_ok, Bool.and_eq_true, beq_iff_eq, and_assoc]

theorem update_height_of_ok {t : Node α} (h : t.heights_ok = true) :
    t.update_height = t := by
  cases t with
  | nil => rfl
  | node v ht l r =>
    rcases heights_ok_node.mp h with ⟨h1, _, _⟩
    simp [Node.update_height, h1]

theorem set_left_m_ok {t c : Node α} (h1 : t.heights_ok = true)
    (h2 : c.heights_ok = true) (h3 : c ≠ Node.nil) :
    (set_left_m t c).heights_ok = true := by
  cases t with
  | nil => simp [set_left_m, Node.heights_ok]
  | node v ht l r =>
    cases c with
    | nil => exact absurd rfl h3
    | node w g a b =>
      rcases heights_ok_node.mp h1 with ⟨_, _, hr⟩
      rw [set_left_m]
      simp only [update_height_of_ok h2]
      exact heights_ok_node.mpr ⟨rfl, h2, hr⟩

theorem set_right_m_ok {t c : Node α} (h1 : t.heights_ok = true)
    (h2 : c.heights_ok = true) (h3 : c ≠ Node.nil) :
    (set_right_m t c).heights_ok = true := by
  cases t with
  | nil => simp [set_right_m, Node.heights_ok]
  | node v ht l r =>
    cases c with
    | nil => exact absurd rfl h3
    | node w g a b =>
      rcases heights_ok_node.mp h1 with ⟨_, hl, _⟩
      rw [set_right_m]
      simp only [update_height_of_ok h2]
      exact heights_ok_node.mpr ⟨rfl, hl, h2⟩

theorem set_left_at_ok {c : Node α} (h2 : c.heights_ok = true) (h3 : c ≠ Node.nil) :
    ∀ (p : List Dir) (t : Node α), t.heights_ok = true →
      (set_left_at t p c).all Node.heights_ok = true := by
  intro p
  induction p with
  | nil =>
    intro t h1
    simpa [set_left_at, Option.all] using set_left_m_ok h1 h2 h3
  | cons d q ih =>
    intro t h1
    cases t with
    | nil => simp [set_left_at]
    | node v ht l r =>
      rcases heights_ok_node.mp h1 with ⟨_, hl, hr⟩
      cases d with
      | L =>
        cases hrec : set_left_at l q c with
        | none => simp [set_left_at, hrec]
        | some l2 =>
          have : l2.heights_ok = true := by
            have := ih l hl
            simpa [hrec, Option.all] using this
          cases c with
          | nil => exact absurd rfl h3
          | node w g a b =>
            simp only [set_left_at, hrec, Option.map_some, Option.all]
            exact heights_ok_node.mpr ⟨rfl, this, hr⟩
      | R =>
        cases hrec : set_left_at r q c with
        | none => simp [set_left_at, hrec]
        | some r2 =>
          have : r2.heights_ok = true := by
            have := ih r hr
            simpa [hrec, Option.all] using this
          cases c with
          | nil => exact absurd rfl h3
          | node w g a b =>
            simp only [set_left_at, hrec, Option.map_some, Option.all]
            exact heights_ok_node.mpr ⟨rfl, hl, this⟩

theorem set_right_at_ok {c : Node α} (h2 : c.heights_ok = true) (h3 : c ≠ Node.nil) :
    ∀ (p : List Dir) (t : Node α), t.heights_ok = true →
      (set_right_at t p c).all Node.heights_ok = true := by
  intro p
  induction p with
  | nil =>
    intro t h1
    simpa [set_right_at, Option.all] using set_right_m_ok h1 h2 h3
  | cons d q ih =>
    intro t h1
    cases t with
    | nil => simp [set_right_at]
    | node v ht l r =>
      rcases heights_ok_node.mp h1 with ⟨_, hl, hr⟩
      cases d with
      | L =>
        cases hrec : set_right_at l q c with
        | none => simp [set_right_at, hrec]
        | some l2 =>
          have : l2.heights_ok = true := by
            have := ih l hl
            simpa [hrec, Option.all] using this
          cases c with
          | nil => exact absurd rfl h3
          | node w g a b =>
            simp only [set_right_at, hrec, Option.map_some, Option.all]
            exact heights_ok_node.mpr ⟨rfl, this, hr⟩
      | R =>
        cases hrec : set_right_at r q c with
        | none => simp [set_right_at, hrec]
        | some r2 =>
          have : r2.heights_ok = true := by
            have := ih r hr
            simpa [hrec, Option.all] using this
          cases c with
          | nil => exact absurd rfl h3
          | node w g a b =>
            simp only [set_right_at, hrec, Option.map_some, Option.all]
            exact heights_ok_node.mpr ⟨rfl, hl, this⟩

theorem reset_left_m_ok {t : Node α} (h : t.heights_ok = true) :
    (reset_left_m t).heights_ok = true := by
  cases t with
  | nil => simp [reset_left_m, Node.heights_ok]
  | node v ht l r =>
    rcases heights_ok_node.mp h with ⟨_, _, hr⟩
    exact heights_ok_node.mpr ⟨rfl, by simp [Node.heights_ok], hr⟩

theorem reset_right_m_ok {t : Node α} (h : t.heights_ok = true) :
    (reset_right_m t).heights_ok = true := by
  cases t with
  | nil => simp [reset_right_m, Node.heights_ok]
  | node v ht l r =>
    rcases heights_ok_node.mp h with ⟨_, hl, _⟩
    exact heights_ok_node.mpr ⟨rfl, hl, by simp [Node.heights_ok]⟩

theorem release_left_m_ok {t : Node α} (h : t.heights_ok = true) :
    (release_left_m t).1.heights_ok = true := by
  cases t with
  | nil => simp [release_left_m, Node.heights_ok]
  | node v ht l r =>
    rcases heights_ok_node.mp h with ⟨_, _, hr⟩
    exact heights_ok_node.mpr ⟨rfl, by simp [Node.heights_ok], hr⟩

theorem release_right_m_ok {t : Node α} (h : t.heights_ok = true) :
    (release_right_m t).1.heights_ok = true := by
  cases t with
  | nil => simp [release_right_m, Node.heights_ok]
  | node v ht l r =>
    rcases heights_ok_node.mp h with ⟨_, hl, _⟩
    exact heights_ok_node.mpr ⟨rfl, hl, by simp [Node.heights_ok]⟩

theorem reset_left_at_ok : ∀ (p : List Dir) (t : Node α), t.heights_ok = true →
    (reset_left_at t p).all Node.heights_ok = true := by
  intro p
  induction p with
  | nil =>
    intro t h1
    simpa [reset_left_at, Option.all] using reset_left_m_ok h1
  | cons d q ih =>
    intro t h1
    cases t with
    | nil => simp [reset_left_at]
    | node v ht l r =>
      rcases heights_ok_node.mp h1 with ⟨_, hl, hr⟩
      cases d with
      | L =>
        cases hrec : reset_left_at l q with
        | none => simp [reset_left_at, hrec]
        | some l2 =>
          have hok : l2.heights_ok = true := by
            have h6 := ih l hl
            simpa [hrec, Option.all] using h6
          simp only [reset_left_at, hrec, Option.map_some, Option.all]
          exact heights_ok_node.mpr ⟨rfl, hok, hr⟩
      | R =>
        cases hrec : reset_left_at r q with
        | none => simp [reset_left_at, hrec]
        | some r2 =>
          have hok : r2.heights_ok = true := by
            have h6 := ih r hr
            simpa [hrec, Option.all] using h6
          simp only [reset_left_at, hrec, Option.map_some, Option.all]
          exact heights_ok_node.mpr ⟨rfl, hl, hok⟩

theorem reset_right_at_ok : ∀ (p : List Dir) (t : Node α), t.heights_ok = true →
    (reset_right_at t p).all Node.heights_ok = true := by
  intro p
  induction p with
  | nil =>
    intro t h1
    simpa [reset_right_at, Option.all] using reset_right_m_ok h1
  | cons d q ih =>
    intro t h1
    cases t with
    | nil => simp [reset_right_at]
    | node v ht l r =>
      rcases heights_ok_node.mp h1 with ⟨_, hl, hr⟩
      cases d with
      | L =>
        cases hrec : reset_right_at l q with
        | none => simp [reset_right_at, hrec]
        | some l2 =>
          have hok : l2.heights_ok = true := by
            have h6 := ih l hl
            simpa [hrec, Option.all] using h6
          simp only [reset_right_at, hrec, Option.map_some, Option.all]
          exact heights_ok_node.mpr ⟨rfl, hok, hr⟩
      | R =>
        cases hrec : reset_right_at r q with
        | none => simp [reset_right_at, hrec]
        | some r2 =>
          have hok : r2.heights_ok = true := by
            have h6 := ih r hr
            simpa [hrec, Option.all] using h6
          simp only [reset_right_at, hrec, Option.map_some, Option.all]
          exact heights_ok_node.mpr ⟨rfl, hl, hok⟩

theorem release_left_at_ok : ∀ (p : List Dir) (t : Node α), t.heights_ok = true →
    ((release_left_at t p).all fun lo => lo.1.heights_ok) = true := by
  intro p
  induction p with
  | nil =>
    intro t h1
    simpa [release_left_at, Option.all] using release_left_m_ok h1
  | cons d q ih =>
    intro t h1
    cases t with
    | nil => simp [release_left_at]
    | node v ht l r =>
      rcases heights_ok_node.mp h1 with ⟨_, hl, hr⟩
      cases d with
      | L =>
        cases hrec : release_left_at l q with
        | none => simp [release_left_at, hrec]
        | some lo =>
          obtain ⟨l2, rel⟩ := lo
          have hok : l2.heights_ok = true := by
            have h6 := ih l hl
            simpa [hrec, Option.all] using h6
          simp only [release_left_at, hrec, Option.map_some, Option.all]
          exact heights_ok_node.mpr ⟨rfl, hok, hr⟩
      | R =>
        cases hrec : release_left_at r q with
        | none => simp [release_left_at, hrec]
        | some ro =>
          obtain ⟨r2, rel⟩ := ro
          have hok : r2.heights_ok = true := by
            have h6 := ih r hr
            simpa [hrec, Option.all] using h6
          simp only [release_left_at, hrec, Option.map_some, Option.all]
          exact heights_ok_node.mpr ⟨rfl, hl, hok⟩

theorem release_right_at_ok : ∀ (p : List Dir) (t : Node α), t.heights_ok = true →
    ((release_right_at t p).all fun lo => lo.1.heights_ok) = true := by
  intro p
  induction p with
  | nil =>
    intro t h1
    simpa [release_right_at, Option.all] using release_right_m_ok h1
  | cons d q ih =>
    intro t h1
    cases t with
    | nil => simp [release_right_at]
    | node v ht l r =>
      rcases heights_ok_node.mp h1 with ⟨_, hl, hr⟩
      cases d with
      | L =>
        cases hrec : release_right_at l q with
        | none => simp [release_right_at, hrec]
        | some lo =>
          obtain ⟨l2, rel⟩ := lo
          have hok : l2.heights_ok = true := by
            have h6 := ih l hl
            simpa [hrec, Option.all] using h6
          simp only [release_right_at, hrec, Option.map_some, Option.all]
          exact heights_ok_node.mpr ⟨rfl, hok, hr⟩
      | R =>
        cases hrec : release_right_at r q with
        | none => simp [release_right_at, hrec]
        | some ro =>
          obtain ⟨r2, rel⟩ := ro
          have hok : r2.heights_ok = true := by
            have h6 := ih r hr
            simpa [hrec, Option.all] using h6
          simp only [release_right_at, hrec, Option.map_some, Option.all]
          exact heights_ok_node.mpr ⟨rfl, hl, hok⟩

/-- C3, amended: `set_left`/`set_right` recompute heights from the mutation
point up to the root only when invoked with a non-null argument, while
`reset_left`/`reset_right`/`release_left`/`release_right` always recompute
from the mutation point up to the root; with a null argument to
`set_left`/`set_right` nothing is recomputed, so a stored height can go
stale (the counterexample).  On correct heights, every recomputing
primitive — invoked at any node of the tree, the upward walk included —
leaves every stored height correct. -/
theorem c3_height_recompute_amended (t c : Node α) (p : List Dir)
    (h1 : t.heights_ok = true) (h2 : c.heights_ok = true) (h3 : c ≠ Node.nil) :
    (set_left_at t p c).all Node.heights_ok = true ∧
    (set_right_at t p c).all Node.heights_ok = true ∧
    (reset_left_at t p).all Node.heights_ok = true ∧
    (reset_right_at t p).all Node.heights_ok = true ∧
    ((release_left_at t p).all fun lo => lo.1.heights_ok) = true ∧
    ((release_right_at t p).all fun lo => lo.1.heights_ok) = true ∧
    (reset_left_m t).heights_ok = true ∧
    (reset_right_m t).heights_ok = true ∧
    (release_left_m t).1.heights_ok = true ∧
    (release_right_m t).1.heights_ok = true :=
  ⟨set_left_at_ok h2 h3 p t h1, set_right_at_ok h2 h3 p t h1,
    reset_left_at_ok p t h1, reset_right_at_ok p t h1,
    release_left_at_ok p t h1, release_right_at_ok p t h1,
    reset_left_m_ok h1, reset_right_m_ok h1,
    release_left_m_ok h1, release_right_m_ok h1⟩

/-- Witness for the amended C3 at a concrete input: the tree holding 2 and 1
mutated at its left child, with a fresh leaf 7. -/
theorem c3_height_recompute_amended_witness :
    (set_left_at tree21 [Dir.L] (Node.node 7 1 Node.nil Node.nil)).all
        Node.heights_ok = true ∧
    (set_right_at tree21 [Dir.L] (Node.node 7 1 Node.nil Node.nil)).all
        Node.heights_ok = true ∧
    (reset_left_at tree21 [Dir.L]).all Node.heights_ok = true ∧
    (reset_right_at tree21 [Dir.L]).all Node.heights_ok = true ∧
    ((release_left_at tree21 [Dir.L]).all fun lo => lo.1.heights_ok) = true ∧
    ((release_right_at tree21 [Dir.L]).all fun lo => lo.1.heights_ok) = true ∧
    (reset_left_m tree21).heights_ok = true ∧
    (reset_right_m tree21).heights_ok = true ∧
    (release_left_m tree21).1.heights_ok = true ∧
    (release_right_m tree21).1.heights_ok = true :=
  c3_height_recompute_amended tree21 (Node.node 7 1 Node.nil Node.nil) [Dir.L]
    (by decide) (by decide) (by decide)

/-- C4, amended: with duplication disallowed, `insert(v, false)` is silently
a no-op — no node created, tree unchanged, no error, invalid position
returned — exactly when the walk's final candidate parent holds a value
equal to `v`; when `v` is present elsewhere on the walk the final comparison
never sees it, and a duplicate node is created (the counterexample). -/
theorem c4_noop_iff_parent_equal (t : Node α) (x : α) :
    ((bst_insert x false t).2 = none ↔ walk_end x t = some x) ∧
    ((bst_insert x false t).2 = none → (bst_insert x false t).1 = t) := by
  induction t with
  | nil => simp [bst_insert, walk_end]
  | node v ht l r ihl ihr =>
    rw [bst_insert.eq_def, walk_end.eq_def]
    by_cases hx : x ≤ v
    · cases l with
      | nil =>
        by_cases hlt : x < v
        · have hne : v ≠ x := (ne_of_lt hlt).symm
          simp [hx, hlt, hne]
        · have hxe : x = v := le_antisymm hx (not_lt.mp hlt)
          subst hxe
          simp
      | node w g c d =>
        rcases hres : bst_insert x false (Node.node w g c d) with ⟨t2, p2⟩
        rw [hres] at ihl
        cases p2 with
        | none =>
          obtain ⟨h1, h2⟩ := by simpa using ihl
          simp [hx, hres, h1, h2]
        | some p =>
          have h1 := by simpa using ihl.1
          simp [hx, hres, h1]
    · cases r with
      | nil =>
        have hne : v ≠ x := ne_of_lt (lt_of_not_le hx)
        simp [hx, hne]
      | node w g c d =>
        rcases hres : bst_insert x false (Node.node w g c d) with ⟨t2, p2⟩
        rw [hres] at ihr
        cases p2 with
        | none =>
          obtain ⟨h1, h2⟩ := by simpa using ihr
          simp [hx, hres, h1, h2]
        | some p =>
          have h1 := by simpa using ihr.1
          simp [hx, hres, h1]

theorem internal_minimum_spec (t : Node α) (h : t ≠ Node.nil) :
    ∃ m, internal_minimum t = some m ∧ subtree_at t (left_spine t) = some m ∧
      m.has_left = false := by
  induction t with
  | nil => exact absurd rfl h
  | node v ht l r ihl =>
    cases l with
    | nil =>
      exact ⟨Node.node v ht Node.nil r, rfl, rfl, rfl⟩
    | node w g c d =>
      obtain ⟨m, h1, h2, h3⟩ := ihl (by simp)
      exact ⟨m, h1, h2, h3⟩

theorem internal_maximum_spec (t : Node α) (h : t ≠ Node.nil) :
    ∃ m, internal_maximum t = some m ∧ subtree_at t (right_spine t) = some m ∧
      m.has_right = false := by
  induction t with
  | nil => exact absurd rfl h
  | node v ht l r _ ihr =>
    cases r with
    | nil =>
      exact ⟨Node.node v ht l Node.nil, rfl, rfl, rfl⟩
    | node w g c d =>
      obtain ⟨m, h1, h2, h3⟩ := ihr (by simp)
      exact ⟨m, h1, h2, h3⟩

/-- C10: the minimum/maximum walks are only safe on a non-empty tree — on the
empty tree they dereference the null root (the model's `none`) — while
`find` on the empty tree safely reports every value absent; on a non-empty
tree the minimum (resp. maximum) is the node reached from the root by
following left (resp. right) children until absent. -/
theorem c10_min_max_empty_safety (t : Node α) (h : t ≠ Node.nil) :
    internal_minimum (Node.nil : Node α) = none ∧
    internal_maximum (Node.nil : Node α) = none ∧
    (∀ x : α, internal_find x (Node.nil : Node α) = none) ∧
    internal_minimum t = subtree_at t (left_spine t) ∧
    internal_maximum t = subtree_at t (right_spine t) ∧
    (∃ m, internal_minimum t = some m ∧ m.has_left = false) ∧
    (∃ m, internal_maximum t = some m ∧ m.has_right = false) := by
  obtain ⟨m1, hm1, hs1, hl1⟩ := internal_minimum_spec t h
  obtain ⟨m2, hm2, hs2, hl2⟩ := internal_maximum_spec t h
  refine ⟨rfl, rfl, fun x => rfl, ?_, ?_, ⟨m1, hm1, hl1⟩, ⟨m2, hm2, hl2⟩⟩
  · rw [hm1, hs1]
  · rw [hm2, hs2]

/-- Witness for C10 on the tree holding 2 and 1. -/
theorem c10_min_max_empty_safety_witness :
    internal_minimum (Node.nil : Node Int) = none ∧
    internal_maximum (Node.nil : Node Int) = none ∧
    (∀ x : Int, internal_find x (Node.nil : Node Int) = none) ∧
    internal_minimum tree21 = subtree_at tree21 (left_spine tree21) ∧
    internal_maximum tree21 = subtree_at tree21 (right_spine tree21) ∧
    (∃ m, internal_minimum tree21 = some m ∧ m.has_left = false) ∧
    (∃ m, internal_maximum tree21 = some m ∧ m.has_right = false) :=
  c10_min_max_empty_safety tree21 (by decide)

/-- C9: in a subtree all of whose stored heights are correct, the walk of
`find_remove_path_end` always finds, at a node of height above one, a
present child of height exactly one less (it never steps into an absent
child), and it terminates at a node of height one; every prefix of the walk
lands on a present node whose height is the start height minus the prefix
length. -/
theorem c9_find_remove_path_end_safe (t : Node α)
    (h1 : t.heights_ok = true) (h2 : t ≠ Node.nil) :
    ∃ p, find_remove_path_end t = some p ∧
      (∀ i, i ≤ p.length →
        ∃ n, subtree_at t (p.take i) = some n ∧ n.get_height = t.get_height - i) ∧
      (∃ e, subtree_at t p = some e ∧ e.get_height = 1) := by
  induction t with
  | nil => exact absurd rfl h2
  | node v ht l r ihl ihr =>
    rcases heights_ok_node.mp h1 with ⟨hh, hl, hr⟩
    by_cases hb : ht ≤ 1
    · refine ⟨[], ?_, ?_, ?_⟩
      · rw [find_remove_path_end.eq_def]
        simp [hb]
      · intro i hi
        simp only [List.length_nil, Nat.le_zero] at hi
        subst hi
        exact ⟨Node.node v ht l r, rfl, by simp [Node.get_height]⟩
      · refine ⟨Node.node v ht l r, rfl, ?_⟩
        have : 1 ≤ ht := by
          rw [hh]; exact Nat.le_add_right 1 _
        simp [Node.get_height]
        omega
    · have hgt : 1 < ht := lt_of_not_le hb
      have hmax : max l.get_height r.get_height = ht - 1 := by omega
      cases l with
      | nil =>
        have hrh : r.get_height = ht - 1 := by simpa using hmax
        have hrne : r ≠ Node.nil := by
          intro he
          rw [he] at hrh
          have h0 : (0 : Nat) = ht - 1 := by simpa using hrh
          omega
        obtain ⟨p, hp, hpre, e, he, he1⟩ := ihr hr hrne
        refine ⟨Dir.R :: p, ?_, ?_, ⟨e, he, he1⟩⟩
        · rw [find_remove_path_end.eq_def]
          simp [hb, hp]
        · intro i hi
          cases i with
          | zero => exact ⟨Node.node v ht Node.nil r, rfl, by simp [Node.get_height]⟩
          | succ j =>
            obtain ⟨n, hn, hn2⟩ := hpre j (by simpa using hi)
            refine ⟨n, by simpa using hn, ?_⟩
            rw [hn2, hrh]
            simp [Node.get_height]
            omega
      | node w g c d =>
        by_cases hld : g = ht - 1
        · subst hld
          have hlne : (Node.node w (ht - 1) c d) ≠ Node.nil := by simp
          obtain ⟨p, hp, hpre, e, he, he1⟩ := ihl hl hlne
          refine ⟨Dir.L :: p, ?_, ?_, ⟨e, he, he1⟩⟩
          · rw [find_remove_path_end.eq_def]
            simp [hb, hp]
          · intro i hi
            cases i with
            | zero =>
              exact ⟨Node.node v ht (Node.node w (ht - 1) c d) r, rfl, by simp⟩
            | succ j =>
              obtain ⟨n, hn, hn2⟩ := hpre j (by simpa using hi)
              refine ⟨n, by simpa using hn, ?_⟩
              rw [hn2]
              simp only [get_height_node]
              omega
        · have hrh : r.get_height = ht - 1 := by
            have h5 : max g r.get_height = ht - 1 := by simpa using hmax
            omega
          have hrne : r ≠ Node.nil := by
            intro he
            rw [he] at hrh
            have h0 : (0 : Nat) = ht - 1 := by simpa using hrh
            omega
          obtain ⟨p, hp, hpre, e, he, he1⟩ := ihr hr hrne
          refine ⟨Dir.R :: p, ?_, ?_, ⟨e, he, he1⟩⟩
          · rw [find_remove_path_end.eq_def]
            simp [hb, hld, hp]
          · intro i hi
            cases i with
            | zero => exact ⟨Node.node v ht (Node.node w g c d) r, rfl, by simp [Node.get_height]⟩
            | succ j =>
              obtain ⟨n, hn, hn2⟩ := hpre j (by simpa using hi)
              refine ⟨n, by simpa using hn, ?_⟩
              rw [hn2, hrh]
              simp [Node.get_height]
              omega

/-- Witness for C9 on a concrete height-correct tree of height 3. -/
theorem c9_find_remove_path_end_safe_witness :
    ∃ p, find_remove_path_end
        (Node.node (5 : Int) 3
          (Node.node 2 2 (Node.node 1 1 Node.nil Node.nil) Node.nil)
          (Node.node 7 1 Node.nil Node.nil)) = some p ∧
      (∀ i, i ≤ p.length →
        ∃ n, subtree_at
            (Node.node (5 : Int) 3
              (Node.node 2 2 (Node.node 1 1 Node.nil Node.nil) Node.nil)
              (Node.node 7 1 Node.nil Node.nil)) (p.take i) = some n ∧
          n.get_height =
            (Node.node (5 : Int) 3
              (Node.node 2 2 (Node.node 1 1 Node.nil Node.nil) Node.nil)
              (Node.node 7 1 Node.nil Node.nil)).get_height - i) ∧
      (∃ e, subtree_at
          (Node.node (5 : Int) 3
            (Node.node 2 2 (Node.node 1 1 Node.nil Node.nil) Node.nil)
            (Node.node 7 1 Node.nil Node.nil)) p = some e ∧ e.get_height = 1) :=
  c9_find_remove_path_end_safe
    (Node.node (5 : Int) 3
      (Node.node 2 2 (Node.node 1 1 Node.nil Node.nil) Node.nil)
      (Node.node 7 1 Node.nil Node.nil)) (by decide) (by decide)

@[simp] theorem strip_nil : strip (Node.nil : Node α) = PTree.nil := rfl

@[simp] theorem strip_node {v : α} {h : Nat} {l r : Node α} :
    strip (Node.node v h l r) = PTree.node v (strip l) (strip r) := rfl

/-- C5: with duplication allowed, `insert` is exactly the walk the spec
describes: it descends comparing with `<=` (equal values go left), its
directions are `walk_path` on the stripped tree; the resulting tree is the
input with one fresh leaf attached at the end of that walk (so an empty tree
gets the new node as root), and the returned position designates the newly
created node, which holds the inserted value. -/
theorem c5_insert_dup_walk (t : Node α) (x : α) :
    (bst_insert x true t).2 = some (walk_path x (strip t)) ∧
    strip (bst_insert x true t).1 = attach_leaf x (strip t) (walk_path x (strip t)) ∧
    subtree_at (bst_insert x true t).1 (walk_path x (strip t))
      = some (Node.node x 1 Node.nil Node.nil) ∧
    (bst_insert x true t).1.size = t.size + 1 := by
  induction t with
  | nil =>
    exact ⟨rfl, rfl, rfl, rfl⟩
  | node v ht l r ihl ihr =>
    rw [bst_insert.eq_def]
    by_cases hx : x ≤ v
    · cases l with
      | nil =>
        refine ⟨?_, ?_, ?_, ?_⟩ <;>
          simp [hx, walk_path, attach_leaf, subtree_at, Node.size] <;> omega
      | node w g c d =>
        rcases hres : bst_insert x true (Node.node w g c d) with ⟨t2, p2⟩
        rw [hres] at ihl
        obtain ⟨ih1, ih2, ih3, ih4⟩ := ihl
        simp only at ih1
        subst ih1
        refine ⟨?_, ?_, ?_, ?_⟩
        · simp [hx, hres, walk_path]
        · simp only [walk_path, strip_node, if_pos hx, hres, attach_leaf]
          simp [ih2, walk_path]
        · simp only [walk_path, strip_node, if_pos hx, hres]
          simpa [subtree_at] using ih3
        · simp only [if_pos hx, hres]
          simp [Node.size] at ih4 ⊢
          omega
    · cases r with
      | nil =>
        refine ⟨?_, ?_, ?_, ?_⟩ <;>
          simp [hx, walk_path, attach_leaf, subtree_at, Node.size] <;> omega
      | node w g c d =>
        rcases hres : bst_insert x true (Node.node w g c d) with ⟨t2, p2⟩
        rw [hres] at ihr
        obtain ⟨ih1, ih2, ih3, ih4⟩ := ihr
        simp only at ih1
        subst ih1
        refine ⟨?_, ?_, ?_, ?_⟩
        · simp [hx, hres, walk_path]
        · simp only [walk_path, strip_node, if_neg hx, hres, attach_leaf]
          simp [ih2, walk_path]
        · simp only [walk_path, strip_node, if_neg hx, hres]
          simpa [subtree_at] using ih3
        · simp only [if_neg hx, hres]
          simp [Node.size] at ih4 ⊢
          omega

theorem subtree_at_append (t : Node α) (p q : List Dir) :
    subtree_at t (p ++ q) = (subtree_at t p).bind (fun s => subtree_at s q) := by
  induction p generalizing t with
  | nil => simp [subtree_at]
  | cons d p ih =>
    cases t with
    | nil => simp [subtree_at]
    | node v h l r => cases d <;> simp [subtree_at, ih]

theorem left_spine_all_L (t : Node α) : ∀ d ∈ left_spine t, d = Dir.L := by
  induction t with
  | nil => simp [left_spine]
  | node v h l r ihl ihr =>
    cases l with
    | nil => simp [left_spine]
    | node w g c d => simpa [left_spine] using ihl

theorem right_spine_all_R (t : Node α) : ∀ d ∈ right_spine t, d = Dir.R := by
  induction t with
  | nil => simp [right_spine]
  | node v h l r ihl ihr =>
    cases r with
    | nil => simp [right_spine]
    | node w g c d => simpa [right_spine] using ihr

theorem internal_minimum_shape (t : Node α) :
    ∀ m, internal_minimum t = some m → ∃ v h r, m = Node.node v h Node.nil r := by
  induction t with
  | nil => intro m hm; exact absurd hm (by simp [internal_minimum])
  | node v h l r ihl ihr =>
    intro m hm
    cases l with
    | nil =>
      rw [internal_minimum] at hm
      exact ⟨v, h, r, (Option.some_injective _ hm).symm⟩
    | node w g c d => exact ihl m hm

theorem climb_pl_skips (u w : List Dir) (h : ∀ d ∈ u, d = Dir.L) :
    climb_pl (u ++ Dir.R :: w) = some w.reverse := by
  induction u with
  | nil => rfl
  | cons d u ih =>
    have hd : d = Dir.L := h d (List.mem_cons_self d u)
    subst hd
    rw [List.cons_append, climb_pl]
    exact ih fun e he => h e (List.mem_cons_of_mem _ he)

theorem climb_sr_decomp (u : List Dir) :
    ∀ s, climb_sr u = some s → ∃ k, u = List.replicate k Dir.R ++ Dir.L :: s.reverse := by
  induction u with
  | nil => intro s hs; exact absurd hs (by simp [climb_sr])
  | cons d u ih =>
    intro s hs
    cases d with
    | R =>
      obtain ⟨k, hk⟩ := ih s hs
      exact ⟨k + 1, by rw [List.replicate_succ, List.cons_append, hk]⟩
    | L =>
      rw [climb_sr] at hs
      have : s = u.reverse := (Option.some_injective _ hs).symm
      subst this
      exact ⟨0, by simp⟩

theorem climb_sr_none (u : List Dir) (h : ∀ d ∈ u, d = Dir.R) :
    climb_sr u = none := by
  induction u with
  | nil => rfl
  | cons d u ih =>
    have hd : d = Dir.R := h d (List.mem_cons_self d u)
    subst hd
    rw [climb_sr]
    exact ih fun e he => h e (List.mem_cons_of_mem _ he)

theorem internal_maximum_shape (t : Node α) :
    ∀ m, internal_maximum t = some m → ∃ v h l, m = Node.node v h l Node.nil := by
  induction t with
  | nil => intro m hm; exact absurd hm (by simp [internal_maximum])
  | node v h l r ihl ihr =>
    intro m hm
    cases r with
    | nil =>
      rw [internal_maximum] at hm
      exact ⟨v, h, l, (Option.some_injective _ hm).symm⟩
    | node w g c d => exact ihr m hm

theorem climb_pl_decomp (u : List Dir) :
    ∀ s, climb_pl u = some s → ∃ k, u = List.replicate k Dir.L ++ Dir.R :: s.reverse := by
  induction u with
  | nil => intro s hs; exact absurd hs (by simp [climb_pl])
  | cons d u ih =>
    intro s hs
    cases d with
    | L =>
      obtain ⟨k, hk⟩ := ih s hs
      exact ⟨k + 1, by rw [List.replicate_succ, List.cons_append, hk]⟩
    | R =>
      rw [climb_pl] at hs
      have hs2 : s = u.reverse := (Option.some_injective _ hs).symm
      subst hs2
      exact ⟨0, by simp⟩

theorem climb_pl_none (u : List Dir) (h : ∀ d ∈ u, d = Dir.L) :
    climb_pl u = none := by
  induction u with
  | nil => rfl
  | cons d u ih =>
    have hd : d = Dir.L := h d (List.mem_cons_self d u)
    subst hd
    rw [climb_pl]
    exact ih fun e he => h e (List.mem_cons_of_mem _ he)

theorem left_spine_of_chain :
    ∀ (k : Nat) (m n : Node α), subtree_at m (List.replicate k Dir.L) = some n →
      n ≠ Node.nil → left_child n = Node.nil →
      left_spine m = List.replicate k Dir.L := by
  intro k
  induction k with
  | zero =>
    intro m n hm hn hl
    have hmn : m = n := by simpa [subtree_at] using hm
    subst hmn
    cases m with
    | nil => exact absurd rfl hn
    | node v h l r =>
      have hl2 : l = Node.nil := by simpa [left_child] using hl
      subst hl2
      rfl
  | succ k ih =>
    intro m n hm hn hl
    rw [List.replicate_succ] at hm
    cases m with
    | nil => exact absurd hm (by simp [subtree_at])
    | node v h l r =>
      rw [subtree_at] at hm
      cases l with
      | nil =>
        cases k with
        | zero =>
          have hcon : Node.nil = n := by simpa [subtree_at] using hm
          exact absurd hcon.symm hn
        | succ j => exact absurd hm (by simp [List.replicate_succ, subtree_at])
      | node w g c d =>
        rw [left_spine, ih (Node.node w g c d) n hm hn hl, List.replicate_succ]

theorem right_spine_of_chain :
    ∀ (k : Nat) (m n : Node α), subtree_at m (List.replicate k Dir.R) = some n →
      n ≠ Node.nil → right_child n = Node.nil →
      right_spine m = List.replicate k Dir.R := by
  intro k
  induction k with
  | zero =>
    intro m n hm hn hr
    have : m = n := by simpa [subtree_at] using hm
    subst this
    cases m with
    | nil => exact absurd rfl hn
    | node v h l r =>
      have : r = Node.nil := by simpa [right_child] using hr
      subst this
      rfl
  | succ k ih =>
    intro m n hm hn hr
    rw [List.replicate_succ] at hm
    cases m with
    | nil => exact absurd hm (by simp [subtree_at])
    | node v h l r =>
      rw [subtree_at] at hm
      cases r with
      | nil =>
        cases k with
        | zero =>
          have : Node.nil = n := by simpa [subtree_at] using hm
          exact absurd this.symm hn
        | succ j => exact absurd hm (by simp [List.replicate_succ, subtree_at])
      | node w g c d =>
        rw [right_spine, ih (Node.node w g c d) n hm hn hr, List.replicate_succ]

/-- C7: for every valid position, `predecessor (successor P) = P` whenever
both are defined; the successor (resp. predecessor) is the minimum (resp.
maximum) of the right (resp. left) subtree when that child exists, and
otherwise any successor (resp. predecessor) is the first ancestor reached
through a left-child (resp. right-child) step — only right-child (resp.
left-child) steps are popped before it — and there is none when the path to
the node consists of right (resp. left) steps only. -/
theorem c7_successor_predecessor (t : Node α) (p : List Dir) (n : Node α)
    (h1 : subtree_at t p = some n) (h2 : n ≠ Node.nil) :
    (∀ s q, successor t p = some s → predecessor t s = some q → q = p) ∧
    (right_child n ≠ Node.nil →
      successor t p = some (p ++ Dir.R :: left_spine (right_child n)) ∧
      subtree_at t (p ++ Dir.R :: left_spine (right_child n))
        = internal_minimum (right_child n)) ∧
    (right_child n = Node.nil → ∀ s, successor t p = some s →
      ∃ k, p = s ++ Dir.L :: List.replicate k Dir.R) ∧
    (right_child n = Node.nil → (∀ d ∈ p, d = Dir.R) → successor t p = none) ∧
    (left_child n ≠ Node.nil →
      predecessor t p = some (p ++ Dir.L :: right_spine (left_child n)) ∧
      subtree_at t (p ++ Dir.L :: right_spine (left_child n))
        = internal_maximum (left_child n)) ∧
    (left_child n = Node.nil → ∀ s, predecessor t p = some s →
      ∃ k, p = s ++ Dir.R :: List.replicate k Dir.L) ∧
    (left_child n = Node.nil → (∀ d ∈ p, d = Dir.L) → predecessor t p = none) := by
  cases n with
  | nil => exact absurd rfl h2
  | node v ht l r =>
    refine ⟨?_, ?_, ?_, ?_, ?_, ?_, ?_⟩
    · intro s q hs hq
      cases r with
      | node w g c d =>
        have hsucc : successor t p
            = some (p ++ Dir.R :: left_spine (Node.node w g c d)) := by
          simp [successor, h1]
        obtain ⟨m, hm1, hm2, _⟩ := internal_minimum_spec (Node.node w g c d) (by simp)
        obtain ⟨mv, mh, mr, hmshape⟩ := internal_minimum_shape _ m hm1
        have hsub : subtree_at t (p ++ Dir.R :: left_spine (Node.node w g c d))
            = some m := by
          rw [subtree_at_append, h1]
          simpa [subtree_at] using hm2
        rw [hsucc] at hs
        have hs2 : s = p ++ Dir.R :: left_spine (Node.node w g c d) :=
          (Option.some_injective _ hs).symm
        subst hs2
        rw [predecessor, hsub, hmshape] at hq
        have hrev : (p ++ Dir.R :: left_spine (Node.node w g c d)).reverse
            = (left_spine (Node.node w g c d)).reverse ++ Dir.R :: p.reverse := by
          simp
        rw [hrev, climb_pl_skips _ _ (fun e he =>
          left_spine_all_L _ e (List.mem_reverse.mp he))] at hq
        have hq2 := (Option.some_injective _ hq).symm
        rw [hq2, List.reverse_reverse]
      | nil =>
        have hsucc : successor t p = climb_sr p.reverse := by
          simp [successor, h1]
        rw [hsucc] at hs
        obtain ⟨k, hk⟩ := climb_sr_decomp p.reverse s hs
        have hp : p = s ++ Dir.L :: List.replicate k Dir.R := by
          have hrv := congrArg List.reverse hk
          simpa [List.reverse_replicate] using hrv
        have h1b : subtree_at t ((s ++ [Dir.L]) ++ List.replicate k Dir.R)
            = some (Node.node v ht l Node.nil) := by
          rw [← h1, hp]
          simp
        rw [subtree_at_append] at h1b
        obtain ⟨m1, hm1, hm2⟩ := Option.bind_eq_some.mp h1b
        rw [subtree_at_append] at hm1
        obtain ⟨ns, hns1, hns2⟩ := Option.bind_eq_some.mp hm1
        cases ns with
        | nil => exact absurd hns2 (by simp [subtree_at])
        | node nv nh nl nr =>
          have hnl : nl = m1 := by simpa [subtree_at] using hns2
          rw [hnl] at hns1
          have hm1ne : m1 ≠ Node.nil := by
            intro he
            rw [he] at hm2
            cases k with
            | zero =>
              have hcon : Node.nil = Node.node v ht l Node.nil := by
                simpa [subtree_at] using hm2
              exact absurd hcon (by simp)
            | succ j => exact absurd hm2 (by simp [List.replicate_succ, subtree_at])
          have hspine : right_spine m1 = List.replicate k Dir.R :=
            right_spine_of_chain k m1 (Node.node v ht l Node.nil) hm2 (by simp)
              (by simp [right_child])
          rw [predecessor, hns1] at hq
          cases m1 with
          | nil => exact absurd rfl hm1ne
          | node mv mh ml mr =>
            have hq2 := (Option.some_injective _ hq).symm
            rw [hq2, hspine, ← hp]
    · intro hr
      cases r with
      | nil => exact absurd (by simp [right_child]) hr
      | node w g c d =>
        have hsucc : successor t p
            = some (p ++ Dir.R :: left_spine (Node.node w g c d)) := by
          simp [successor, h1]
        obtain ⟨m, hm1, hm2, _⟩ := internal_minimum_spec (Node.node w g c d) (by simp)
        have hsub : subtree_at t (p ++ Dir.R :: left_spine (Node.node w g c d))
            = some m := by
          rw [subtree_at_append, h1]
          simpa [subtree_at] using hm2
        refine ⟨hsucc, ?_⟩
        simp only [right_child]
        rw [hsub]
        exact hm1.symm
    · intro hr s hs
      cases r with
      | node w g c d => exact absurd hr (by simp [right_child])
      | nil =>
        have hsucc : successor t p = climb_sr p.reverse := by
          simp [successor, h1]
        rw [hsucc] at hs
        obtain ⟨k, hk⟩ := climb_sr_decomp p.reverse s hs
        refine ⟨k, ?_⟩
        have hrv := congrArg List.reverse hk
        simpa [List.reverse_replicate] using hrv
    · intro hr hp
      cases r with
      | node w g c d => exact absurd hr (by simp [right_child])
      | nil =>
        have hsucc : successor t p = climb_sr p.reverse := by
          simp [successor, h1]
        rw [hsucc]
        exact climb_sr_none _ fun e he => hp e (List.mem_reverse.mp he)
    · intro hl2
      cases l with
      | nil => exact absurd (by simp [left_child]) hl2
      | node w g c d =>
        have hpred : predecessor t p
            = some (p ++ Dir.L :: right_spine (Node.node w g c d)) := by
          simp [predecessor, h1]
        obtain ⟨m, hm1, hm2, _⟩ := internal_maximum_spec (Node.node w g c d) (by simp)
        have hsub : subtree_at t (p ++ Dir.L :: right_spine (Node.node w g c d))
            = some m := by
          rw [subtree_at_append, h1]
          simpa [subtree_at] using hm2
        refine ⟨hpred, ?_⟩
        simp only [left_child]
        rw [hsub]
        exact hm1.symm
    · intro hl2 s hs
      cases l with
      | node w g c d => exact absurd hl2 (by simp [left_child])
      | nil =>
        have hpred : predecessor t p = climb_pl p.reverse := by
          simp [predecessor, h1]
        rw [hpred] at hs
        obtain ⟨k, hk⟩ := climb_pl_decomp p.reverse s hs
        refine ⟨k, ?_⟩
        have hrv := congrArg List.reverse hk
        simpa [List.reverse_replicate] using hrv
    · intro hl2 hp
      cases l with
      | node w g c d => exact absurd hl2 (by simp [left_child])
      | nil =>
        have hpred : predecessor t p = climb_pl p.reverse := by
          simp [predecessor, h1]
        rw [hpred]
        exact climb_pl_none _ fun e he => hp e (List.mem_reverse.mp he)

/-- Witness for C7 at a concrete position: the node holding 1 in the tree
with root 2 and left child 1. -/
theorem c7_successor_predecessor_witness :
    (∀ s q, successor tree21 [Dir.L] = some s →
      predecessor tree21 s = some q → q = [Dir.L]) ∧
    (right_child (Node.node (1 : Int) 1 Node.nil Node.nil) ≠ Node.nil →
      successor tree21 [Dir.L]
        = some ([Dir.L] ++ Dir.R ::
            left_spine (right_child (Node.node (1 : Int) 1 Node.nil Node.nil))) ∧
      subtree_at tree21 ([Dir.L] ++ Dir.R ::
          left_spine (right_child (Node.node (1 : Int) 1 Node.nil Node.nil)))
        = internal_minimum (right_child (Node.node (1 : Int) 1 Node.nil Node.nil))) ∧
    (right_child (Node.node (1 : Int) 1 Node.nil Node.nil) = Node.nil →
      ∀ s, successor tree21 [Dir.L] = some s →
        ∃ k, [Dir.L] = s ++ Dir.L :: List.replicate k Dir.R) ∧
    (right_child (Node.node (1 : Int) 1 Node.nil Node.nil) = Node.nil →
      (∀ d ∈ [Dir.L], d = Dir.R) → successor tree21 [Dir.L] = none) ∧
    (left_child (Node.node (1 : Int) 1 Node.nil Node.nil) ≠ Node.nil →
      predecessor tree21 [Dir.L]
        = some ([Dir.L] ++ Dir.L ::
            right_spine (left_child (Node.node (1 : Int) 1 Node.nil Node.nil))) ∧
      subtree_at tree21 ([Dir.L] ++ Dir.L ::
          right_spine (left_child (Node.node (1 : Int) 1 Node.nil Node.nil)))
        = internal_maximum (left_child (Node.node (1 : Int) 1 Node.nil Node.nil))) ∧
    (left_child (Node.node (1 : Int) 1 Node.nil Node.nil) = Node.nil →
      ∀ s, predecessor tree21 [Dir.L] = some s →
        ∃ k, [Dir.L] = s ++ Dir.R :: List.replicate k Dir.L) ∧
    (left_child (Node.node (1 : Int) 1 Node.nil Node.nil) = Node.nil →
      (∀ d ∈ [Dir.L], d = Dir.L) → predecessor tree21 [Dir.L] = none) :=
  c7_successor_predecessor tree21 [Dir.L] (Node.node 1 1 Node.nil Node.nil)
    (by decide) (by decide)

/-!
The BST ordering invariant and its preservation by every public operation,
towards the reachable-state theorem of the in-order claim.
-/

/-- The structural BST ordering invariant matching the `<=`-left placement:
everything in a left subtree is at most the node's value, everything in a
right subtree at least it. -/
def ordered : Node α → Prop
  | Node.nil => True
  | Node.node v _ l r =>
    ordered l ∧ ordered r ∧ (∀ x ∈ l.inorder, x ≤ v) ∧ (∀ x ∈ r.inorder, v ≤ x)

theorem ordered_iff_sorted (t : Node α) :
    ordered t ↔ t.inorder.Sorted (· ≤ ·) := by
  induction t with
  | nil => simp [ordered, List.Sorted]
  | node v h l r ihl ihr =>
    rw [ordered, inorder_node]
    unfold List.Sorted
    rw [List.pairwise_append, List.pairwise_cons]
    constructor
    · rintro ⟨ol, or2, hl, hr⟩
      refine ⟨(ihl.mp ol : _), ⟨fun b hb => hr b hb, (ihr.mp or2 : _)⟩, ?_⟩
      intro a ha b hb
      rcases List.mem_cons.mp hb with hb | hb
      · rw [hb]; exact hl a ha
      · exact (hl a ha).trans (hr b hb)
    · rintro ⟨sl, ⟨hv, sr⟩, hcross⟩
      exact ⟨ihl.mpr sl, ihr.mpr sr,
        fun x hx => hcross x hx v (List.mem_cons_self v _),
        fun x hx => hv x hx⟩

theorem mem_inorder_insert (x : α) (dup : Bool) (t : Node α) :
    ∀ y ∈ (bst_insert x dup t).1.inorder, y ∈ t.inorder ∨ y = x := by
  induction t with
  | nil =>
    intro y hy
    right
    simpa [bst_insert] using hy
  | node v h l r ihl ihr =>
    rw [bst_insert.eq_def]
    by_cases hx : x ≤ v
    · cases l with
      | nil =>
        by_cases hd : (dup || decide (x < v)) = true
        · intro y hy
          simp only [if_pos hx, hd, if_true] at hy
          simp only [inorder_node, inorder_nil, List.nil_append] at hy ⊢
          rcases List.mem_cons.mp hy with hy | hy
          · right; simpa using hy
          · left; exact hy
        · intro y hy
          simp only [if_pos hx, hd, if_false] at hy
          left
          simpa using hy
      | node w g c d =>
        intro y hy
        simp only [if_pos hx] at hy
        simp only [inorder_node] at hy ⊢
        rcases List.mem_append.mp hy with hy | hy
        · rcases ihl y hy with hm | hm
          · left; exact List.mem_append.mpr (Or.inl hm)
          · right; exact hm
        · left; exact List.mem_append.mpr (Or.inr hy)
    · cases r with
      | nil =>
        intro y hy
        simp only [if_neg hx] at hy
        simp only [inorder_node, inorder_nil, List.nil_append] at hy ⊢
        rcases List.mem_append.mp hy with hy | hy
        · left; exact List.mem_append.mpr (Or.inl hy)
        · rcases List.mem_cons.mp hy with hy | hy
          · left; rw [hy]; exact List.mem_append.mpr (Or.inr (List.mem_cons_self _ _))
          · right; simpa using hy
      | node w g c d =>
        intro y hy
        simp only [if_neg hx] at hy
        simp only [inorder_node] at hy ⊢
        rcases List.mem_append.mp hy with hy | hy
        · left; exact List.mem_append.mpr (Or.inl hy)
        · rcases List.mem_cons.mp hy with hy | hy
          · left; rw [hy]; exact List.mem_append.mpr (Or.inr (List.mem_cons_self _ _))
          · rcases ihr y hy with hm | hm
            · left
              exact List.mem_append.mpr (Or.inr (List.mem_cons_of_mem _ hm))
            · right; exact hm

theorem ordered_insert (x : α) (dup : Bool) (t : Node α) (h : ordered t) :
    ordered (bst_insert x dup t).1 := by
  induction t with
  | nil => simp [bst_insert, ordered]
  | node v ht l r ihl ihr =>
    obtain ⟨ol, or2, hl, hr⟩ := h
    rw [bst_insert.eq_def]
    by_cases hx : x ≤ v
    · cases l with
      | nil =>
        by_cases hd : (dup || decide (x < v)) = true
        · simp only [if_pos hx, hd, if_true]
          exact ⟨⟨trivial, trivial, by simp, by simp⟩, or2,
            by simpa using hx, hr⟩
        · simp only [if_pos hx, hd, if_false]
          exact ⟨trivial, or2, by simp, hr⟩
      | node w g c d =>
        simp only [if_pos hx]
        refine ⟨ihl ol, or2, ?_, hr⟩
        intro y hy
        rcases mem_inorder_insert x dup (Node.node w g c d) y hy with hm | hm
        · exact hl y hm
        · rw [hm]; exact hx
    · have hvx : v ≤ x := le_of_lt (lt_of_not_le hx)
      cases r with
      | nil =>
        simp only [if_neg hx]
        refine ⟨ol, ⟨trivial, trivial, by simp, by simp⟩, hl, ?_⟩
        intro y hy
        simp only [inorder_node, inorder_nil, List.nil_append] at hy
        rcases List.mem_cons.mp hy with hy | hy
        · rw [hy]; exact hvx
        · simp at hy
      | node w g c d =>
        simp only [if_neg hx]
        refine ⟨ol, ihr or2, hl, ?_⟩
        intro y hy
        rcases mem_inorder_insert x dup (Node.node w g c d) y hy with hm | hm
        · exact hr y hm
        · rw [hm]; exact hvx

theorem extract_min_go_inorder (t : Node α) :
    ∀ m t2, extract_min_go t = some (m, t2) → t.inorder = m :: t2.inorder := by
  induction t with
  | nil => intro m t2 hm; exact absurd hm (by simp [extract_min_go])
  | node v h l rr ihl ihr =>
    intro m t2 hm
    cases l with
    | nil =>
      rw [extract_min_go] at hm
      injection hm with hp
      injection hp with h1 h2
      subst h1
      subst h2
      simp
    | node w g c d =>
      rw [extract_min_go] at hm
      rcases Option.map_eq_some.mp hm with ⟨⟨m1, l2⟩, hgo, heq⟩
      have hig := ihl m1 l2 hgo
      injection heq with h1 h2
      subst h1
      subst h2
      show (Node.node w g c d).inorder ++ v :: rr.inorder = _
      rw [hig]
      rfl

theorem extract_min_inorder (t : Node α) :
    ∀ m t2, extract_min t = some (m, t2) → t.inorder = m :: t2.inorder := by
  intro m t2 hm
  cases t with
  | nil => exact absurd hm (by simp [extract_min])
  | node v h l rr =>
    cases l with
    | nil =>
      rw [extract_min] at hm
      injection hm with hp
      injection hp with h1 h2
      subst h1
      subst h2
      simp
    | node w g c d =>
      rw [extract_min] at hm
      rcases Option.map_eq_some.mp hm with ⟨⟨m1, l2⟩, hgo, heq⟩
      have hig := extract_min_go_inorder _ m1 l2 hgo
      injection heq with h1 h2
      subst h1
      subst h2
      show (Node.node w g c d).inorder ++ v :: rr.inorder = _
      rw [hig]
      rfl

theorem remove_here_sublist (b : Bool) (t : Node α) :
    ∀ occ u io, remove_here b t = some (occ, u, io) → List.Sublist occ.inorder t.inorder := by
  intro occ u io hr
  cases t with
  | nil => exact absurd hr (by simp [remove_here])
  | node v h l r =>
    cases l with
    | nil =>
      cases r with
      | nil =>
        have h0 : Node.nil = occ := by
          simpa [remove_here] using congrArg (fun o => o.map Prod.fst) hr
        rw [← h0]
        simp
      | node w g c d =>
        have h0 : (if b then Node.node w g c d
            else (Node.node w g c d).update_height) = occ := by
          simpa [remove_here] using congrArg (fun o => o.map Prod.fst) hr
        rw [← h0]
        have hin : (if b then Node.node w g c d
            else (Node.node w g c d).update_height).inorder
            = (Node.node w g c d).inorder := by
          cases b <;> simp
        rw [hin]
        simp only [inorder_node, inorder_nil, List.nil_append]
        exact List.Sublist.cons v (List.Sublist.refl _)
    | node lw lg lc ld =>
      cases r with
      | nil =>
        have h0 : (if b then Node.node lw lg lc ld
            else (Node.node lw lg lc ld).update_height) = occ := by
          simpa [remove_here] using congrArg (fun o => o.map Prod.fst) hr
        rw [← h0]
        have hin : (if b then Node.node lw lg lc ld
            else (Node.node lw lg lc ld).update_height).inorder
            = (Node.node lw lg lc ld).inorder := by
          cases b <;> simp
        rw [hin]
        simp only [inorder_node, inorder_nil]
        exact List.sublist_append_left _ _
      | node rw2 rg rc rd =>
        rw [remove_here] at hr
        rcases Option.map_eq_some.mp hr with ⟨⟨m, r2⟩, hex, heq⟩
        have hocc : occ = Node.node m
            (1 + max (Node.node lw lg lc ld).update_height.get_height r2.get_height)
            (Node.node lw lg lc ld).update_height r2 := by
          have h6 := congrArg Prod.fst heq
          simpa using h6.symm
        rw [hocc]
        have hri := extract_min_inorder _ m r2 hex
        show List.Sublist
            ((Node.node lw lg lc ld).update_height.inorder ++ m :: r2.inorder)
            ((Node.node lw lg lc ld).inorder ++ v :: (Node.node rw2 rg rc rd).inorder)
        rw [inorder_update_height, hri]
        refine List.Sublist.append_left ?_ _
        exact List.Sublist.cons v (List.Sublist.refl _)

theorem remove_go_sublist (p : List Dir) :
    ∀ (b : Bool) (t t2 : Node α) u res, remove_go b t p = some (t2, u, res) →
      List.Sublist t2.inorder t.inorder := by
  induction p with
  | nil =>
    intro b t t2 u res hr
    rw [remove_go] at hr
    rcases Option.map_eq_some.mp hr with ⟨⟨occ, u2, io⟩, hh, heq⟩
    have : t2 = occ := by
      have := congrArg Prod.fst heq
      simpa using this.symm
    rw [this]
    exact remove_here_sublist b t occ u2 io hh
  | cons d q ih =>
    intro b t t2 u res hr
    cases t with
    | nil => exact absurd hr (by cases d <;> simp [remove_go])
    | node v h l r =>
      cases d with
      | L =>
        rw [remove_go] at hr
        rcases Option.map_eq_some.mp hr with ⟨⟨l2, u2, res2⟩, hh, heq⟩
        have ht2 : t2 = if u2 then Node.node v (1 + max l2.get_height r.get_height) l2 r
            else Node.node v h l2 r := by
          have := congrArg Prod.fst heq
          simpa using this.symm
        have hsub := ih false l l2 u2 res2 hh
        have hin : t2.inorder = l2.inorder ++ v :: r.inorder := by
          rw [ht2]; cases u2 <;> simp
        rw [hin, inorder_node]
        exact List.Sublist.append hsub (List.Sublist.refl _)
      | R =>
        rw [remove_go] at hr
        rcases Option.map_eq_some.mp hr with ⟨⟨r2, u2, res2⟩, hh, heq⟩
        have ht2 : t2 = if u2 then Node.node v (1 + max l.get_height r2.get_height) l r2
            else Node.node v h l r2 := by
          have := congrArg Prod.fst heq
          simpa using this.symm
        have hsub := ih false r r2 u2 res2 hh
        have hin : t2.inorder = l.inorder ++ v :: r2.inorder := by
          rw [ht2]; cases u2 <;> simp
        rw [hin, inorder_node]
        exact List.Sublist.append (List.Sublist.refl _) (List.Sublist.cons₂ v hsub)

theorem rotate_case_inorder (ty : imbalance_type) (t t2 : Node α)
    (h : rotate_case ty t = some t2) : t2.inorder = t.inorder := by
  cases ty with
  | LL =>
    cases t with
    | nil => exact absurd h (by simp [rotate_case])
    | node vy hy l c =>
      cases l with
      | nil => exact absurd h (by simp [rotate_case])
      | node vx hx a b =>
        simp only [rotate_case] at h
        rw [← Option.some_injective _ h]
        simp [List.append_assoc]
  | RR =>
    cases t with
    | nil => exact absurd h (by simp [rotate_case])
    | node vy hy a l =>
      cases l with
      | nil => exact absurd h (by simp [rotate_case])
      | node vx hx b c =>
        simp only [rotate_case] at h
        rw [← Option.some_injective _ h]
        simp [List.append_assoc]
  | LR =>
    cases t with
    | nil => exact absurd h (by simp [rotate_case])
    | node v3 h3 l d =>
      cases l with
      | nil => exact absurd h (by simp [rotate_case])
      | node v1 hx a k2 =>
        cases k2 with
        | nil => exact absurd h (by simp [rotate_case])
        | node v2 h2 b c =>
          simp only [rotate_case] at h
          rw [← Option.some_injective _ h]
          simp [List.append_assoc]
  | RL =>
    cases t with
    | nil => exact absurd h (by simp [rotate_case])
    | node v1 hx a l =>
      cases l with
      | nil => exact absurd h (by simp [rotate_case])
      | node v3 h3 k2 d =>
        cases k2 with
        | nil => exact absurd h (by simp [rotate_case])
        | node v2 h2 b c =>
          simp only [rotate_case] at h
          rw [← Option.some_injective _ h]
          simp [List.append_assoc]

theorem rotate_at_inorder (p : List Dir) :
    ∀ (t : Node α) (ty : imbalance_type) (t2 : Node α),
      rotate_at t p ty = some t2 → t2.inorder = t.inorder := by
  induction p with
  | nil =>
    intro t ty t2 h
    refine rotate_case_inorder ty t t2 ?_
    cases t <;> exact h
  | cons d q ih =>
    intro t ty t2 h
    cases t with
    | nil => exact absurd h (by cases d <;> simp [rotate_at])
    | node v ht l r =>
      cases d with
      | L =>
        rw [rotate_at] at h
        rcases Option.map_eq_some.mp h with ⟨l2, hrec, heq⟩
        rw [← heq]
        simp only [inorder_node]
        rw [ih l ty l2 hrec]
      | R =>
        rw [rotate_at] at h
        rcases Option.map_eq_some.mp h with ⟨r2, hrec, heq⟩
        rw [← heq]
        simp only [inorder_node]
        rw [ih r ty r2 hrec]

theorem sorted_bst_insert (x : α) (dup : Bool) (t : Node α)
    (h : t.inorder.Sorted (· ≤ ·)) :
    (bst_insert x dup t).1.inorder.Sorted (· ≤ ·) :=
  (ordered_iff_sorted _).mp (ordered_insert x dup t ((ordered_iff_sorted t).mpr h))

theorem sorted_remove_at (t : Node α) (p : List Dir) (t2 : Node α) (u : Bool)
    (res : Option (List Dir)) (hr : remove_at t p = some (t2, u, res))
    (hs : t.inorder.Sorted (· ≤ ·)) : t2.inorder.Sorted (· ≤ ·) :=
  List.Pairwise.sublist (remove_go_sublist p true t t2 u res hr) hs

theorem sorted_bst_remove (t : Node α) (x : α) (hs : t.inorder.Sorted (· ≤ ·)) :
    (bst_remove t x).2.inorder.Sorted (· ≤ ·) := by
  rw [bst_remove]
  cases hf : internal_find x t with
  | none => exact hs
  | some p =>
    show List.Sorted (· ≤ ·) (match remove_at t p with
      | some (t2, _, _) => (true, t2)
      | none => (true, t)).2.inorder
    cases hr : remove_at t p with
    | none => exact hs
    | some tur =>
      obtain ⟨t2, u, res⟩ := tur
      exact sorted_remove_at t p t2 u res hr hs

theorem sorted_avl_insert (t : Node α) (x : α) (dup : Bool) (t2 : Node α)
    (h : avl_insert t x dup = some t2) (hs : t.inorder.Sorted (· ≤ ·)) :
    t2.inorder.Sorted (· ≤ ·) := by
  have hbst := sorted_bst_insert x dup t hs
  rw [avl_insert] at h
  rcases hres : bst_insert x dup t with ⟨t1, p2⟩
  rw [hres] at h hbst
  simp only at hbst
  cases p2 with
  | none =>
    have ht : t1 = t2 := Option.some_injective _ h
    rw [← ht]
    exact hbst
  | some p =>
    have h2 : (match check_balance t1 p with
        | BalRes.balanced => some t1
        | BalRes.ub => none
        | BalRes.imb pre ty => rotate_at t1 pre ty) = some t2 := h
    cases hcb : check_balance t1 p with
    | balanced =>
      rw [hcb] at h2
      have ht : t1 = t2 := Option.some_injective _ h2
      rw [← ht]
      exact hbst
    | ub =>
      rw [hcb] at h2
      exact absurd h2 (by simp)
    | imb pre ty =>
      rw [hcb] at h2
      have hin := rotate_at_inorder pre t1 ty t2 h2
      unfold List.Sorted at hbst ⊢
      rw [hin]
      exact hbst

theorem sorted_avl_remove_at (t : Node α) (p : List Dir) (t2 : Node α)
    (h : avl_remove_at t p = some t2) (hs : t.inorder.Sorted (· ≤ ·)) :
    t2.inorder.Sorted (· ≤ ·) := by
  rw [avl_remove_at] at h
  cases hr : remove_at t p with
  | none => rw [hr] at h; exact absurd h (by simp)
  | some tur =>
    obtain ⟨t1, u, res⟩ := tur
    rw [hr] at h
    have hs1 := sorted_remove_at t p t1 u res hr hs
    cases res with
    | none =>
      have ht : t1 = t2 := Option.some_injective _ h
      rw [← ht]
      exact hs1
    | some q =>
      have h2 : (match subtree_at t1 q with
          | none => none
          | some sub =>
            match find_remove_path_end sub with
            | none => none
            | some tail =>
              match check_balance t1 (q ++ tail) with
              | BalRes.balanced => some t1
              | BalRes.ub => none
              | BalRes.imb pre ty => rotate_at t1 pre ty) = some t2 := h
      cases hsub : subtree_at t1 q with
      | none => rw [hsub] at h2; exact absurd h2 (by simp)
      | some sub =>
        rw [hsub] at h2
        have h3 : (match find_remove_path_end sub with
            | none => none
            | some tail =>
              match check_balance t1 (q ++ tail) with
              | BalRes.balanced => some t1
              | BalRes.ub => none
              | BalRes.imb pre ty => rotate_at t1 pre ty) = some t2 := h2
        cases hfr : find_remove_path_end sub with
        | none => rw [hfr] at h3; exact absurd h3 (by simp)
        | some tail =>
          rw [hfr] at h3
          have h4 : (match check_balance t1 (q ++ tail) with
              | BalRes.balanced => some t1
              | BalRes.ub => none
              | BalRes.imb pre ty => rotate_at t1 pre ty) = some t2 := h3
          cases hcb : check_balance t1 (q ++ tail) with
          | balanced =>
            rw [hcb] at h4
            have ht : t1 = t2 := Option.some_injective _ h4
            rw [← ht]
            exact hs1
          | ub =>
            rw [hcb] at h4
            exact absurd h4 (by simp)
          | imb pre ty =>
            rw [hcb] at h4
            have hin := rotate_at_inorder pre t1 ty t2 h4
            unfold List.Sorted at hs1 ⊢
            rw [hin]
            exact hs1

theorem sorted_avl_remove (t : Node α) (x : α) (b : Bool) (t2 : Node α)
    (h : avl_remove t x = some (b, t2)) (hs : t.inorder.Sorted (· ≤ ·)) :
    t2.inorder.Sorted (· ≤ ·) := by
  rw [avl_remove] at h
  cases hf : internal_find x t with
  | none =>
    rw [hf] at h
    have h2 : some (false, t) = some (b, t2) := h
    have ht : t = t2 := congrArg Prod.snd (Option.some_injective _ h2)
    rw [← ht]
    exact hs
  | some p =>
    rw [hf] at h
    rcases Option.map_eq_some.mp h with ⟨t1, h1, heq⟩
    have ht : t1 = t2 := congrArg Prod.snd heq
    rw [← ht]
    exact sorted_avl_remove_at t p t1 h1 hs

/-- The trees obtainable from the empty tree by any sequence of public
insert and remove operations, at either layer: BST insert with or without
duplication, BST remove by value or by valid position, and the AVL layer's
insert and remove — by value or by valid position — whenever they
complete. -/
inductive reachable : Node α → Prop
  | start : reachable Node.nil
  | bst_ins (t : Node α) (x : α) (dup : Bool) :
      reachable t → reachable (bst_insert x dup t).1
  | bst_rem (t : Node α) (x : α) : reachable t → reachable (bst_remove t x).2
  | bst_rem_pos (t : Node α) (p : List Dir) (t2 : Node α) (u : Bool)
      (res : Option (List Dir)) :
      reachable t → remove_at t p = some (t2, u, res) → reachable t2
  | avl_ins (t : Node α) (x : α) (dup : Bool) (t2 : Node α) :
      reachable t → avl_insert t x dup = some t2 → reachable t2
  | avl_rem (t : Node α) (x : α) (b : Bool) (t2 : Node α) :
      reachable t → avl_remove t x = some (b, t2) → reachable t2
  | avl_rem_pos (t : Node α) (p : List Dir) (t2 : Node α) :
      reachable t → avl_remove_at t p = some t2 → reachable t2

/-- C2: for every tree obtained from the empty tree by any sequence of
insert and remove operations — on the BST engine or the AVL layer, with or
without duplicates — the in-order traversal of the stored values is a
non-decreasing sequence. -/
theorem c2_inorder_sorted (t : Node α) (h : reachable t) :
    t.inorder.Sorted (· ≤ ·) := by
  induction h with
  | start => simp
  | bst_ins t x dup _ ih => exact sorted_bst_insert x dup t ih
  | bst_rem t x _ ih => exact sorted_bst_remove t x ih
  | bst_rem_pos t p t2 u res _ hr ih => exact sorted_remove_at t p t2 u res hr ih
  | avl_ins t x dup t2 _ he ih => exact sorted_avl_insert t x dup t2 he ih
  | avl_rem t x b t2 _ he ih => exact sorted_avl_remove t x b t2 he ih
  | avl_rem_pos t p t2 _ he ih => exact sorted_avl_remove_at t p t2 he ih

/-- Witness for C2: a concrete reachable tree built by an AVL insert, a BST
insert and an AVL remove, whose in-order traversal is sorted. -/
theorem c2_inorder_sorted_witness :
    ((bst_insert (1 : Int) true tree8_4_12).1.inorder).Sorted (· ≤ ·) :=
  c2_inorder_sorted (bst_insert (1 : Int) true tree8_4_12).1
    (reachable.bst_ins tree8_4_12 1 true
      (by
        have h12 : avl_insert (Node.nil : Node Int) 12 true
            = some (Node.node 12 1 Node.nil Node.nil) := by decide
        have h8 : avl_insert (Node.node (12 : Int) 1 Node.nil Node.nil) 8 true
            = some (Node.node 12 2 (Node.node 8 1 Node.nil Node.nil) Node.nil) := by
          decide
        have h4 : avl_insert
            (Node.node (12 : Int) 2 (Node.node 8 1 Node.nil Node.nil) Node.nil) 4 true
            = some tree8_4_12 := by decide
        exact reachable.avl_ins _ 4 true tree8_4_12
          (reachable.avl_ins _ 8 true _
            (reachable.avl_ins _ 12 true _ reachable.start h12) h8) h4))

end ghl
